import Mathlib

/-!
Verification development for the vendored concurrency toolkit of the
WebSoftwareDevelopment walking-skeleton repository: the `deferred` single-shot
signal, the `pooledMap` bounded concurrent mapper, the `MuxAsyncIterator`
stream multiplexer, and the HTTP `Server` core (close/serve guards, accept-loop
backoff, request dispatch).  Each JavaScript component is shallowly embedded as
an executable Lean state machine or pure function; asynchronous scheduling
nondeterminism is made explicit through lists of scheduler choices.
-/

/-! ## Deferred signal (`deferred.ts`)

`deferred()` builds a promise with `resolve`/`reject` methods and a `state`
variable.  `resolve` is `async`: it first awaits its argument, then sets
`state = "fulfilled"` and calls the underlying `resolve`; `reject` sets
`state = "rejected"` and calls the underlying `reject`.  The underlying
promise's settlement is first-call-wins; the `state` variable is written
unconditionally.  A resolve argument is modelled as `Except ε τ`: `.ok v` is an
awaitable that fulfills with `v` (or a plain value), `.error e` one that
rejects. -/

inductive DState where
  | pending
  | fulfilled
  | rejected
deriving DecidableEq, Repr

structure DeferredM (ε τ : Type) where
  /-- the `state` variable exposed through the `state` getter -/
  state : DState
  /-- the settlement of the underlying `Promise` (`none` while unsettled) -/
  result : Option (Except ε τ)
deriving Repr

/-- A freshly created deferred: `state = "pending"`, promise unsettled. -/
def deferredNew {ε τ : Type} : DeferredM ε τ :=
  { state := .pending, result := none }

/-- `async resolve(value) { await value; state = "fulfilled"; resolve(value); }`:
if `value` rejects, `await value` throws inside the async method and nothing
after it runs; otherwise `state` is overwritten and the underlying `resolve` is
invoked (a no-op when the promise is already settled). -/
def DeferredM.resolve {ε τ : Type} (d : DeferredM ε τ) (value : Except ε τ) :
    DeferredM ε τ :=
  match value with
  | .error _ => d
  | .ok v =>
    { state := .fulfilled
      result := match d.result with
        | some r => some r
        | none => some (.ok v) }

/-- `reject(reason) { state = "rejected"; reject(reason); }`: `state` is
overwritten unconditionally, the underlying `reject` is a no-op when the
promise is already settled. -/
def DeferredM.reject {ε τ : Type} (d : DeferredM ε τ) (reason : ε) :
    DeferredM ε τ :=
  { state := .rejected
    result := match d.result with
      | some r => some r
      | none => some (.error reason) }

/-! ## HTTP Server core (`http/server.ts`): close/serve guards -/

/-- `Server closed` error (`Deno.errors.Http(ERROR_SERVER_CLOSED)`). -/
inductive ServerErr where
  | serverClosed
deriving DecidableEq, Repr

/-- The mutable fields of a `Server` instance relevant to shutdown:
`#closed`, `#listeners`, `#httpConnections` (insertion-ordered sets are
modelled as duplicate-free usage of lists). -/
structure ServerState (L C : Type) where
  closed : Bool
  listeners : List L
  httpConnections : List C
deriving DecidableEq, Repr

/-- `close()`: throws if already closed, else sets `#closed`, closes every
tracked listener and HTTP connection (close errors suppressed) and clears both
sets. -/
def Server.close {L C : Type} (s : ServerState L C) :
    Except ServerErr (ServerState L C) :=
  if s.closed then .error .serverClosed
  else .ok { closed := true, listeners := [], httpConnections := [] }

/-- `get addrs()`: maps each tracked listener to its network address. -/
def Server.addrs {L C A : Type} (addrOf : L → A) (s : ServerState L C) :
    List A :=
  s.listeners.map addrOf

/-- `serve(listener)`: throws if the server is closed, else tracks the listener
and enters the accept loop (modelled separately by `acceptLoop`). -/
def Server.serve {L C : Type} (s : ServerState L C) (l : L) :
    Except ServerErr (ServerState L C) :=
  if s.closed then .error .serverClosed
  else .ok { s with listeners := s.listeners ++ [l] }

/-- `listenAndServe()`: throws if the server is closed, else constructs a plain
TCP listener (`Deno.listen`, external; passed in as `l`) and delegates to
`serve`. -/
def Server.listenAndServe {L C : Type} (s : ServerState L C) (l : L) :
    Except ServerErr (ServerState L C) :=
  if s.closed then .error .serverClosed
  else Server.serve s l

/-- `listenAndServeTls(certFile, keyFile)`: throws if the server is closed,
else constructs a TLS listener (`Deno.listenTls`, external; passed in as `l`)
and delegates to `serve`. -/
def Server.listenAndServeTls {L C : Type} (s : ServerState L C)
    (certFile keyFile : String) (l : L) :
    Except ServerErr (ServerState L C) :=
  if s.closed then .error .serverClosed
  else Server.serve s l

/-! ## HTTP Server core: accept-loop backoff (`Server.#accept`) -/

/-- Initial backoff delay of 5ms following a temporary accept failure. -/
def INITIAL_ACCEPT_BACKOFF_DELAY : Nat := 5

/-- Max backoff delay of 1s following a temporary accept failure. -/
def MAX_ACCEPT_BACKOFF_DELAY : Nat := 1000

/-- The error classes tested by the `instanceof` chain in `Server.#accept`,
plus `other` for anything else. -/
inductive AcceptErrKind where
  | badResource
  | invalidData
  | unexpectedEof
  | connectionReset
  | notConnected
  | other
deriving DecidableEq, Repr

/-- Whether the error matches the transient `instanceof` chain
(`BadResource`, `InvalidData`, `UnexpectedEof`, `ConnectionReset`,
`NotConnected`). -/
def AcceptErrKind.isTransient : AcceptErrKind → Bool
  | .badResource => true
  | .invalidData => true
  | .unexpectedEof => true
  | .connectionReset => true
  | .notConnected => true
  | .other => false

/-- Outcome of one `listener.accept()` attempt. -/
inductive AcceptOutcome (C : Type) where
  | success (c : C)
  | failure (k : AcceptErrKind)

/-- The backoff update in `Server.#accept`: if no delay is accumulated start at
`INITIAL_ACCEPT_BACKOFF_DELAY`, otherwise double; then cap at
`MAX_ACCEPT_BACKOFF_DELAY`. -/
def nextBackoffDelay (d : Option Nat) : Nat :=
  let d₁ := match d with
    | none => INITIAL_ACCEPT_BACKOFF_DELAY
    | some x => x * 2
  if MAX_ACCEPT_BACKOFF_DELAY ≤ d₁ then MAX_ACCEPT_BACKOFF_DELAY else d₁

/-- The accept loop of `Server.#accept`, driven by a finite list of accept
outcomes.  Returns the list of backoff delays slept (in order) and the error
propagated out of the loop, if any.  A successful accept resets the
accumulated delay to `undefined`; a transient failure sleeps the updated
delay and retries; any other failure is re-thrown (surfaced). -/
def acceptLoop {C : Type} (d : Option Nat) :
    List (AcceptOutcome C) → List Nat × Option AcceptErrKind
  | [] => ([], none)
  | .success _ :: rest => acceptLoop none rest
  | .failure k :: rest =>
    if k.isTransient then
      let d₁ := nextBackoffDelay d
      let r := acceptLoop (some d₁) rest
      (d₁ :: r.1, r.2)
    else ([], some k)

/-! ## HTTP Server core: request dispatch (`Server.#respond`) -/

/-- `Server.#respond` body: `response = await handler(...)`, falling back to
`await onError(error)` when the handler throws. -/
def respondCore {E R : Type} (handlerResult : Except E R)
    (onError : E → Except E R) : Except E R :=
  match handlerResult with
  | .ok r => .ok r
  | .error e => onError e

/-- Effect of one (un-awaited) `Server.#respond` dispatch on the server state:
returns the new state, the response actually sent (if any), and the error that
escaped the dispatch (if any).  If the fallback error handler itself throws,
the exception escapes before `respondWith` is attempted; if sending fails, the
connection is closed and untracked (`#closeHttpConn`). -/
def Server.respond {L C E R : Type} [DecidableEq C] (s : ServerState L C)
    (conn : C) (handlerResult : Except E R) (onError : E → Except E R)
    (sendOk : R → Bool) : ServerState L C × Option R × Option E :=
  match respondCore handlerResult onError with
  | .error e₂ => (s, none, some e₂)
  | .ok r =>
    if sendOk r then (s, some r, none)
    else ({ s with httpConnections := s.httpConnections.erase conn },
          none, none)

/-! ## Bounded concurrent mapper (`pooledMap`, `async/pool.ts`)

The producer loop of `pooledMap` is embedded as a small-step machine.  Each
input's transformation is a task whose predetermined outcome is `f item`; the
scheduler decides when each task settles relative to the loop's progress.  A
task that settles successfully writes its value downstream and splices itself
out of `executing`; a task that rejects stays in `executing` (its splice
continuation is skipped).  The loop awaits `Promise.race(executing)` when
`executing.length >= poolLimit` after a push, awaits `Promise.all(executing)`
after the source is exhausted, and on any observed rejection enters the catch
block, which awaits `Promise.allSettled(executing)` and then writes a single
rejected `AggregateError` as the terminal event. -/

deriving instance DecidableEq for Except

inductive PoolTask (ε β : Type) where
  /-- launched, not yet settled; the outcome it will settle with is `f item` -/
  | pendingT (outcome : Except ε β)
  /-- settled with a rejection; never spliced out of `executing` -/
  | rejectedT (e : ε)
deriving DecidableEq, Repr

def PoolTask.isPending {ε β : Type} : PoolTask ε β → Bool
  | .pendingT _ => true
  | .rejectedT _ => false

def PoolTask.isRejected {ε β : Type} : PoolTask ε β → Bool
  | .pendingT _ => false
  | .rejectedT _ => true

/-- The rejection reason of a settled-rejected task. -/
def PoolTask.reasonOf {ε β : Type} : PoolTask ε β → Option ε
  | .pendingT _ => none
  | .rejectedT e => some e

/-- Events observable on the output stream returned by `pooledMap`. -/
inductive PoolEvent (ε β : Type) where
  /-- a successful transformation result forwarded downstream -/
  | value (v : β)
  /-- clean close of the writer (end of stream) -/
  | closedEv
  /-- the single rejected `AggregateError` written in the catch block -/
  | aggregateError (errs : List ε)
deriving DecidableEq, Repr

/-- Control position of the producer loop. -/
inductive PoolPhase where
  /-- inside `for await`, about to pull the next input -/
  | ready
  /-- suspended at `await Promise.race(executing)` -/
  | racing
  /-- suspended at `await Promise.all(executing)` after the source ended -/
  | awaitingAll
  /-- in the catch block, suspended at `await Promise.allSettled(executing)` -/
  | catching
  /-- `writer.close()` has run -/
  | closedPh
  /-- the aggregate error has been written -/
  | erroredPh
deriving DecidableEq, Repr

structure PoolState (α ε β : Type) where
  /-- inputs not yet pulled from the source -/
  remaining : List α
  /-- the `executing` array -/
  executing : List (PoolTask ε β)
  /-- events written downstream, in order -/
  output : List (PoolEvent ε β)
  phase : PoolPhase
  /-- instrumentation: count of unsettled tasks at each launch, in order -/
  launches : List Nat
  /-- instrumentation: some input was pulled after a transformation had
  already settled with a rejection -/
  pullAfterFailure : Bool
  /-- instrumentation: number of tasks settled successfully so far -/
  okSettled : Nat
  /-- instrumentation: number of tasks settled with a rejection so far -/
  failCount : Nat
deriving DecidableEq, Repr

def poolInit {α ε β : Type} (items : List α) : PoolState α ε β :=
  { remaining := items, executing := [], output := [], phase := .ready,
    launches := [], pullAfterFailure := false, okSettled := 0, failCount := 0 }

/-- Number of unsettled (in-flight) tasks in the `executing` array. -/
def poolCountPending {ε β : Type} (l : List (PoolTask ε β)) : Nat :=
  l.countP (fun t => t.isPending)

/-- One resumption of the producer loop itself (pulling the next input,
observing `Promise.all`, or finishing the catch block).  Returns `none` when
the loop is suspended waiting on a task settlement or has terminated. -/
def poolLoopStep {α ε β : Type} (L : Nat) (f : α → Except ε β)
    (s : PoolState α ε β) : Option (PoolState α ε β) :=
  match s.phase with
  | .ready =>
    match s.remaining with
    | [] => some { s with phase := .awaitingAll }
    | a :: rest =>
      let executing₂ := s.executing ++ [.pendingT (f a)]
      some { s with
        remaining := rest
        executing := executing₂
        launches := s.launches ++ [poolCountPending s.executing]
        pullAfterFailure :=
          s.pullAfterFailure || s.executing.any (fun t => t.isRejected)
        phase :=
          if L ≤ executing₂.length then
            if s.executing.any (fun t => t.isRejected) then .catching
            else .racing
          else .ready }
  | .awaitingAll =>
    if s.executing.any (fun t => t.isRejected) then
      some { s with phase := .catching }
    else
      match s.executing with
      | [] => some { s with
          phase := .closedPh
          output := s.output ++ [.closedEv] }
      | _ :: _ => none
  | .catching =>
    if s.executing.all (fun t => t.isRejected) then
      some { s with
        phase := .erroredPh
        output := s.output ++
          [.aggregateError (s.executing.filterMap (fun t => t.reasonOf))] }
    else none
  | _ => none

/-- Settlement of the `i`-th entry of `executing`:  a success writes its value
and splices itself out (resolving a pending `Promise.race`); a rejection stays
in place (rejecting a pending `Promise.race`). -/
def poolSettle {α ε β : Type} (s : PoolState α ε β) (i : Nat) :
    Option (PoolState α ε β) :=
  match s.executing.get? i with
  | some (.pendingT (.ok v)) =>
    some { s with
      executing := s.executing.eraseIdx i
      output := s.output ++ [.value v]
      okSettled := s.okSettled + 1
      phase := if s.phase = .racing then .ready else s.phase }
  | some (.pendingT (.error e)) =>
    some { s with
      executing := s.executing.set i (.rejectedT e)
      failCount := s.failCount + 1
      phase := if s.phase = .racing then .catching else s.phase }
  | _ => none

/-- A scheduler choice: resume the producer loop, or settle task `i`. -/
inductive PoolChoice where
  | loopStep
  | settle (i : Nat)
deriving DecidableEq, Repr

def poolStep {α ε β : Type} (L : Nat) (f : α → Except ε β)
    (s : PoolState α ε β) : PoolChoice → Option (PoolState α ε β)
  | .loopStep => poolLoopStep L f s
  | .settle i => poolSettle s i

/-- Run the machine over a list of scheduler choices; a choice that is not
enabled in the current state is skipped. -/
def poolRun {α ε β : Type} (L : Nat) (f : α → Except ε β)
    (s : PoolState α ε β) : List PoolChoice → PoolState α ε β
  | [] => s
  | c :: cs => poolRun L f ((poolStep L f s c).getD s) cs

/-- Whether an output event is the aggregate failure. -/
def PoolEvent.isAggregate {ε β : Type} : PoolEvent ε β → Bool
  | .aggregateError _ => true
  | _ => false

/-- Whether an output event is a forwarded success value. -/
def PoolEvent.isValueEv {ε β : Type} : PoolEvent ε β → Bool
  | .value _ => true
  | _ => false

/-- Number of `aggregateError` events in an output trace. -/
def poolErrCount {ε β : Type} (out : List (PoolEvent ε β)) : Nat :=
  out.countP (fun ev => ev.isAggregate)

/-- Number of `value` events in an output trace. -/
def poolValueCount {ε β : Type} (out : List (PoolEvent ε β)) : Nat :=
  out.countP (fun ev => ev.isValueEv)

/-! ## Theorems: Deferred signal -/

/-- C9: resolving a Deferred with an awaitable that itself rejects leaves the
Deferred completely unchanged: `await value` throws inside the async `resolve`,
so the state is never set to `"fulfilled"` and the underlying promise is not
settled by that call. -/
theorem deferred_resolve_rejecting_value_noop {ε τ : Type}
    (d : DeferredM ε τ) (e : ε) :
    d.resolve (.error e) = d := by
  rfl

/-- C5 counterexample: after a first settlement `resolve(42)` (state
`"fulfilled"`, promise fulfilled with 42), a subsequent `reject 7` changes the
observable state to `"rejected"`, so further settle calls are not no-ops and
the observable state does change after the first settlement. -/
theorem deferred_state_mutates_after_settlement :
    ((deferredNew : DeferredM Nat Nat).resolve (.ok 42)).state = .fulfilled ∧
    (((deferredNew : DeferredM Nat Nat).resolve (.ok 42)).reject 7).state =
      .rejected ∧
    (((deferredNew : DeferredM Nat Nat).resolve (.ok 42)).reject 7).result =
      some (.ok 42) := by
  exact ⟨rfl, rfl, rfl⟩

/-- C5 (amended): the underlying promise settles at most once — once settled,
later `resolve`/`reject` calls cannot change its result — but the observable
`state` field is overwritten unconditionally by every `reject` and every
`resolve` with a fulfilling value, so it can change after settlement. -/
theorem deferred_promise_settles_once {ε τ : Type} (d : DeferredM ε τ)
    (r : Except ε τ) (v : τ) (e : ε) (h : d.result = some r) :
    (d.resolve (.ok v)).result = some r ∧
    (d.reject e).result = some r ∧
    (d.resolve (.ok v)).state = .fulfilled ∧
    (d.reject e).state = .rejected := by
  refine ⟨?_, ?_, rfl, rfl⟩ <;> simp [DeferredM.resolve, DeferredM.reject, h]

/-- Witness for `deferred_promise_settles_once` at a concrete settled
deferred. -/
theorem deferred_promise_settles_once_witness :
    ((⟨.fulfilled, some (.ok 1)⟩ : DeferredM Nat Nat).resolve (.ok 2)).result =
      some (.ok 1) ∧
    ((⟨.fulfilled, some (.ok 1)⟩ : DeferredM Nat Nat).reject 9).result =
      some (.ok 1) ∧
    ((⟨.fulfilled, some (.ok 1)⟩ : DeferredM Nat Nat).resolve (.ok 2)).state =
      .fulfilled ∧
    ((⟨.fulfilled, some (.ok 1)⟩ : DeferredM Nat Nat).reject 9).state =
      .rejected :=
  deferred_promise_settles_once ⟨.fulfilled, some (.ok 1)⟩ (.ok 1) 2 9 rfl

/-! ## Theorems: Server close semantics (C3) -/

/-- C3: once `close()` succeeds on a not-yet-closed server, the resulting
state has no tracked listeners (so `addrs` is empty), and every subsequent
`serve`, `listenAndServe`, `listenAndServeTls`, or `close` call fails with the
server-closed error. -/
theorem server_close_seals {L C A : Type} (s : ServerState L C)
    (h : s.closed = false) (l l₂ l₃ : L) (addrOf : L → A)
    (certFile keyFile : String) :
    ∃ s₂, Server.close s = .ok s₂ ∧
      Server.addrs addrOf s₂ = [] ∧
      Server.serve s₂ l = .error .serverClosed ∧
      Server.listenAndServe s₂ l₂ = .error .serverClosed ∧
      Server.listenAndServeTls s₂ certFile keyFile l₃ =
        .error .serverClosed ∧
      Server.close s₂ = .error .serverClosed := by
  refine ⟨{ closed := true, listeners := [], httpConnections := [] },
    ?_, ?_, ?_, ?_, ?_, ?_⟩ <;>
    simp [Server.close, Server.addrs, Server.serve, Server.listenAndServe,
      Server.listenAndServeTls, h]

/-- Witness for `server_close_seals` on a concrete open server with one
tracked listener and one tracked connection. -/
theorem server_close_seals_witness :
    ∃ s₂, Server.close (⟨false, [4], [7]⟩ : ServerState Nat Nat) = .ok s₂ ∧
      Server.addrs (fun a => a) s₂ = [] ∧
      Server.serve s₂ 5 = .error .serverClosed ∧
      Server.listenAndServe s₂ 5 = .error .serverClosed ∧
      Server.listenAndServeTls s₂ "c" "k" 5 = .error .serverClosed ∧
      Server.close s₂ = .error .serverClosed :=
  server_close_seals ⟨false, [4], [7]⟩ rfl 5 5 5 (fun a => a) "c" "k"

/-! ## Theorems: request dispatch (C10) -/

/-- C10: when the user request handler throws and the fallback error handler
also throws, the dispatch sends no response, does not close or untrack the
connection (the server state is unchanged), and the error handler's failure
escapes the un-awaited `#respond` call. -/
theorem respond_error_handler_failure_escapes {L C E R : Type}
    [DecidableEq C] (s : ServerState L C) (conn : C) (e e₂ : E)
    (handlerResult : Except E R) (onError : E → Except E R)
    (sendOk : R → Bool) (hh : handlerResult = .error e)
    (ho : onError e = .error e₂) :
    Server.respond s conn handlerResult onError sendOk = (s, none, some e₂) := by
  simp [Server.respond, respondCore, hh, ho]

/-- Witness for `respond_error_handler_failure_escapes` at a concrete failing
handler and failing error handler. -/
theorem respond_error_handler_failure_escapes_witness :
    Server.respond (⟨false, [1], [2]⟩ : ServerState Nat Nat) 2
      (Except.error 3 : Except Nat Nat) (fun e => Except.error (e + 1))
      (fun _ => true) = (⟨false, [1], [2]⟩, none, some 4) :=
  respond_error_handler_failure_escapes ⟨false, [1], [2]⟩ 2 3 4
    (Except.error 3) (fun e => Except.error (e + 1)) (fun _ => true) rfl rfl

/-! ## Helper lemmas for the pool machine -/

/-- Number of settled-rejected tasks in the `executing` array. -/
def poolCountRejected {ε β : Type} (l : List (PoolTask ε β)) : Nat :=
  l.countP (fun t => t.isRejected)

theorem poolCountPending_le_length {ε β : Type} (l : List (PoolTask ε β)) :
    poolCountPending l ≤ l.length :=
  List.countP_le_length _

theorem poolCountPending_append_pending {ε β : Type}
    (l : List (PoolTask ε β)) (o : Except ε β) :
    poolCountPending (l ++ [.pendingT o]) = poolCountPending l + 1 := by
  simp [poolCountPending, List.countP_append, List.countP_cons,
    PoolTask.isPending]

theorem pool_length_eraseIdx_le {γ : Type} :
    ∀ (l : List γ) (i : Nat), (l.eraseIdx i).length ≤ l.length
  | [], _ => Nat.le_refl _
  | _ :: _, 0 => by simp [List.eraseIdx]
  | x :: l, i + 1 => by
    have h := pool_length_eraseIdx_le l i
    simp only [List.eraseIdx, List.length_cons]
    omega

theorem pool_length_eraseIdx_lt {γ : Type} :
    ∀ (l : List γ) (i : Nat) (x : γ), l.get? i = some x →
      (l.eraseIdx i).length < l.length
  | [], i, x, h => by simp at h
  | _ :: l, 0, x, _ => by simp [List.eraseIdx]
  | y :: l, i + 1, x, h => by
    have h₂ := pool_length_eraseIdx_lt l i x (by simpa using h)
    simp only [List.eraseIdx, List.length_cons]
    omega

theorem poolCountPending_eraseIdx_le {ε β : Type} :
    ∀ (l : List (PoolTask ε β)) (i : Nat),
      poolCountPending (l.eraseIdx i) ≤ poolCountPending l
  | [], _ => Nat.le_refl _
  | t :: l, 0 => by
    simp only [List.eraseIdx, poolCountPending, List.countP_cons]
    omega
  | t :: l, i + 1 => by
    have h := poolCountPending_eraseIdx_le l i
    simp only [List.eraseIdx, poolCountPending, List.countP_cons] at *
    omega

theorem poolCountPending_eraseIdx_pending {ε β : Type} :
    ∀ (l : List (PoolTask ε β)) (i : Nat) (o : Except ε β),
      l.get? i = some (.pendingT o) →
      poolCountPending (l.eraseIdx i) + 1 = poolCountPending l
  | [], i, o, h => by simp at h
  | t :: l, 0, o, h => by
    simp only [List.get?] at h
    cases h
    simp [List.eraseIdx, poolCountPending, List.countP_cons, PoolTask.isPending]
  | t :: l, i + 1, o, h => by
    have h₂ := poolCountPending_eraseIdx_pending l i o (by simpa using h)
    simp only [List.eraseIdx, poolCountPending, List.countP_cons] at *
    omega

theorem poolCountRejected_eraseIdx_pending {ε β : Type} :
    ∀ (l : List (PoolTask ε β)) (i : Nat) (o : Except ε β),
      l.get? i = some (.pendingT o) →
      poolCountRejected (l.eraseIdx i) = poolCountRejected l
  | [], i, o, h => by simp at h
  | t :: l, 0, o, h => by
    simp only [List.get?] at h
    cases h
    simp [List.eraseIdx, poolCountRejected, List.countP_cons,
      PoolTask.isRejected]
  | t :: l, i + 1, o, h => by
    have h₂ := poolCountRejected_eraseIdx_pending l i o (by simpa using h)
    simp only [List.eraseIdx, poolCountRejected, List.countP_cons] at *
    omega

theorem poolCountRejected_set_rejected {ε β : Type} :
    ∀ (l : List (PoolTask ε β)) (i : Nat) (o : Except ε β) (e : ε),
      l.get? i = some (.pendingT o) →
      poolCountRejected (l.set i (.rejectedT e)) = poolCountRejected l + 1
  | [], i, o, e, h => by simp at h
  | t :: l, 0, o, e, h => by
    simp only [List.get?] at h
    cases h
    simp [List.set, poolCountRejected, List.countP_cons, PoolTask.isRejected]
  | t :: l, i + 1, o, e, h => by
    have h₂ := poolCountRejected_set_rejected l i o e (by simpa using h)
    simp only [List.set, poolCountRejected, List.countP_cons] at *
    omega

theorem poolCountPending_set_rejected {ε β : Type} :
    ∀ (l : List (PoolTask ε β)) (i : Nat) (o : Except ε β) (e : ε),
      l.get? i = some (.pendingT o) →
      poolCountPending (l.set i (.rejectedT e)) + 1 = poolCountPending l
  | [], i, o, e, h => by simp at h
  | t :: l, 0, o, e, h => by
    simp only [List.get?] at h
    cases h
    simp [List.set, poolCountPending, List.countP_cons, PoolTask.isPending]
  | t :: l, i + 1, o, e, h => by
    have h₂ := poolCountPending_set_rejected l i o e (by simpa using h)
    simp only [List.set, poolCountPending, List.countP_cons] at *
    omega


theorem pool_filterMap_reason_length {ε β : Type} :
    ∀ (l : List (PoolTask ε β)),
      (l.filterMap (fun t => t.reasonOf)).length = poolCountRejected l
  | [] => rfl
  | .pendingT o :: l => by
    have h := pool_filterMap_reason_length l
    simp [List.filterMap_cons, PoolTask.reasonOf, poolCountRejected,
      List.countP_cons, PoolTask.isRejected] at *
    omega
  | .rejectedT e :: l => by
    have h := pool_filterMap_reason_length l
    simp [List.filterMap_cons, PoolTask.reasonOf, poolCountRejected,
      List.countP_cons, PoolTask.isRejected] at *
    omega

/-! ## The pool concurrency invariant (C1) -/

/-- Invariant tying the loop position to the size of `executing`: the loop is
at a pull point only while `executing.length < L`, is suspended at the race
only while `executing.length ≤ L`, the number of unsettled tasks never
exceeds `L`, and every recorded launch happened with fewer than `L` unsettled
tasks in flight. -/
def PoolInv {α ε β : Type} (L : Nat) (s : PoolState α ε β) : Prop :=
  (s.phase = .ready → s.executing.length < L) ∧
  (s.phase = .racing → s.executing.length ≤ L) ∧
  poolCountPending s.executing ≤ L ∧
  (∀ x ∈ s.launches, x < L)

theorem pool_length_set {ε β : Type} (l : List (PoolTask ε β)) (i : Nat)
    (t : PoolTask ε β) : (l.set i t).length = l.length := by
  simp

theorem poolStep_inv {α ε β : Type} (L : Nat) (f : α → Except ε β)
    (hL : 1 ≤ L) (s : PoolState α ε β) (c : PoolChoice) (h : PoolInv L s) :
    PoolInv L ((poolStep L f s c).getD s) := by
  obtain ⟨rem, ex, out, ph, la, paf, okc, fc⟩ := s
  obtain ⟨h₁, h₂, h₃, h₄⟩ := h
  dsimp only at h₁ h₂ h₃ h₄
  cases c with
  | loopStep =>
    cases ph with
    | ready =>
      cases rem with
      | nil =>
        exact ⟨(fun h => nomatch h), (fun h => nomatch h), h₃, h₄⟩
      | cons a rest =>
        have hlen : ex.length < L := h₁ rfl
        have hcnt : poolCountPending ex < L :=
          Nat.lt_of_le_of_lt (poolCountPending_le_length _) hlen
        simp only [poolStep, poolLoopStep, Option.getD_some]
        refine ⟨?_, ?_, ?_, ?_⟩
        · dsimp only
          split
          · split
            · exact (fun h => nomatch h)
            · exact (fun h => nomatch h)
          · rename_i hnot
            intro _
            simp only [List.length_append, List.length_cons,
              List.length_nil] at hnot ⊢
            omega
        · dsimp only
          split
          · split
            · exact (fun h => nomatch h)
            · intro _
              simp only [List.length_append, List.length_cons, List.length_nil]
              omega
          · exact (fun h => nomatch h)
        · dsimp only
          rw [poolCountPending_append_pending]
          omega
        · dsimp only
          intro x hx
          rcases List.mem_append.mp hx with hx | hx
          · exact h₄ x hx
          · rcases List.mem_singleton.mp hx with rfl
            exact hcnt
    | racing => exact ⟨h₁, h₂, h₃, h₄⟩
    | awaitingAll =>
      simp only [poolStep, poolLoopStep]
      split
      · simp only [Option.getD_some]
        exact ⟨(fun h => nomatch h), (fun h => nomatch h), h₃, h₄⟩
      · split
        · rename_i hex
          simp only [Option.getD_some]
          refine ⟨(fun h => nomatch h), (fun h => nomatch h), ?_, h₄⟩
          dsimp only
          exact h₃
        · simp only [Option.getD_none]
          exact ⟨(fun h => nomatch h), (fun h => nomatch h), h₃, h₄⟩
    | catching =>
      simp only [poolStep, poolLoopStep]
      split
      · simp only [Option.getD_some]
        exact ⟨(fun h => nomatch h), (fun h => nomatch h), h₃, h₄⟩
      · simp only [Option.getD_none]
        exact ⟨(fun h => nomatch h), (fun h => nomatch h), h₃, h₄⟩
    | closedPh => exact ⟨(fun h => nomatch h), (fun h => nomatch h), h₃, h₄⟩
    | erroredPh => exact ⟨(fun h => nomatch h), (fun h => nomatch h), h₃, h₄⟩
  | settle i =>
    show PoolInv L ((poolSettle _ i).getD _)
    cases hget : ex.get? i with
    | none =>
      simp only [poolSettle, hget, Option.getD_none]
      exact ⟨h₁, h₂, h₃, h₄⟩
    | some t =>
      cases t with
      | rejectedT e =>
        simp only [poolSettle, hget, Option.getD_none]
        exact ⟨h₁, h₂, h₃, h₄⟩
      | pendingT o =>
        cases o with
        | ok v =>
          simp only [poolSettle, hget, Option.getD_some]
          have hcp := poolCountPending_eraseIdx_le ex i
          by_cases hrace : ph = PoolPhase.racing
          · have hle : ex.length ≤ L := h₂ hrace
            have hlt := pool_length_eraseIdx_lt ex i _ hget
            refine ⟨?_, ?_, ?_, ?_⟩
            · dsimp only
              simp only [if_pos hrace]
              intro _
              omega
            · dsimp only
              simp only [if_pos hrace]
              exact (fun h => nomatch h)
            · dsimp only
              omega
            · dsimp only
              exact h₄
          · have hle := pool_length_eraseIdx_le ex i
            refine ⟨?_, ?_, ?_, ?_⟩
            · dsimp only
              simp only [if_neg hrace]
              intro hready
              have := h₁ hready
              omega
            · dsimp only
              simp only [if_neg hrace]
              intro hr
              exact absurd hr hrace
            · dsimp only
              omega
            · dsimp only
              exact h₄
        | error e =>
          simp only [poolSettle, hget, Option.getD_some]
          have hlen := pool_length_set ex i (.rejectedT e)
          have hcp := poolCountPending_set_rejected ex i (Except.error e) e hget
          by_cases hrace : ph = PoolPhase.racing
          · refine ⟨?_, ?_, ?_, ?_⟩
            · dsimp only
              simp only [if_pos hrace]
              exact (fun h => nomatch h)
            · dsimp only
              simp only [if_pos hrace]
              exact (fun h => nomatch h)
            · dsimp only
              omega
            · dsimp only
              exact h₄
          · refine ⟨?_, ?_, ?_, ?_⟩
            · dsimp only
              simp only [if_neg hrace]
              intro hready
              have := h₁ hready
              omega
            · dsimp only
              simp only [if_neg hrace]
              intro hr
              exact absurd hr hrace
            · dsimp only
              omega
            · dsimp only
              exact h₄

theorem poolRun_inv {α ε β : Type} (L : Nat) (f : α → Except ε β)
    (hL : 1 ≤ L) : ∀ (cs : List PoolChoice) (s : PoolState α ε β),
      PoolInv L s → PoolInv L (poolRun L f s cs)
  | [], _, h => h
  | c :: cs, s, h =>
    poolRun_inv L f hL cs _ (poolStep_inv L f hL s c h)

theorem poolInit_inv {α ε β : Type} (L : Nat) (items : List α) (hL : 1 ≤ L) :
    PoolInv L (poolInit (ε := ε) (β := β) items) := by
  refine ⟨?_, ?_, ?_, ?_⟩
  · intro _
    simp only [poolInit, List.length_nil]
    omega
  · intro h
    simp [poolInit] at h
  · simp [poolInit, poolCountPending]
  · simp [poolInit]

/-! ## Theorems: bounded concurrency (C1) -/

/-- C1: for every concurrency limit `L ≥ 1`, every finite input sequence,
every transformation and every scheduling of task settlements, at the moment a
new transformation is launched the number of already in-flight unsettled
transformations is strictly less than `L` (each entry of `launches` records
that count), and the number of unsettled transformations never exceeds `L`. -/
theorem pooledMap_launch_below_limit {α ε β : Type} (L : Nat)
    (items : List α) (f : α → Except ε β) (cs : List PoolChoice)
    (hL : 1 ≤ L) :
    (∀ x ∈ (poolRun L f (poolInit items) cs).launches, x < L) ∧
    poolCountPending (poolRun L f (poolInit items) cs).executing ≤ L := by
  have h := poolRun_inv L f hL cs (poolInit items) (poolInit_inv L items hL)
  exact ⟨h.2.2.2, h.2.2.1⟩

/-- Witness for `pooledMap_launch_below_limit`: a concrete run with `L = 2`
over three inputs and an interleaved schedule. -/
theorem pooledMap_launch_below_limit_witness :
    (∀ x ∈ (poolRun 2 (fun n => (Except.ok n : Except Nat Nat))
      (poolInit [1, 2, 3])
      [.loopStep, .loopStep, .settle 0, .loopStep, .settle 1, .settle 0,
        .loopStep, .loopStep]).launches, x < 2) ∧
    poolCountPending (poolRun 2 (fun n => (Except.ok n : Except Nat Nat))
      (poolInit [1, 2, 3])
      [.loopStep, .loopStep, .settle 0, .loopStep, .settle 1, .settle 0,
        .loopStep, .loopStep]).executing ≤ 2 :=
  pooledMap_launch_below_limit 2 [1, 2, 3] _ _ (by decide)

/-! ## Failure observation and output structure of the pool machine (C2) -/

/-- The producer loop has observed a rejection: it is in the catch block, or
has already written the aggregate error. -/
def PoolObserved {α ε β : Type} (s : PoolState α ε β) : Prop :=
  s.phase = .catching ∨ s.phase = .erroredPh

theorem poolStep_observed {α ε β : Type} (L : Nat) (f : α → Except ε β)
    (s : PoolState α ε β) (c : PoolChoice) (h : PoolObserved s) :
    PoolObserved ((poolStep L f s c).getD s) ∧
      ((poolStep L f s c).getD s).remaining = s.remaining := by
  obtain ⟨rem, ex, out, ph, la, paf, okc, fc⟩ := s
  have hph : ph = PoolPhase.catching ∨ ph = PoolPhase.erroredPh := h
  cases c with
  | loopStep =>
    rcases hph with rfl | rfl
    · simp only [poolStep, poolLoopStep]
      split
      · exact ⟨Or.inr rfl, rfl⟩
      · exact ⟨Or.inl rfl, rfl⟩
    · exact ⟨Or.inr rfl, rfl⟩
  | settle i =>
    simp only [poolStep]
    cases hget : ex.get? i with
    | none =>
      simp only [poolSettle, hget, Option.getD_none]
      exact ⟨h, trivial⟩
    | some t =>
      cases t with
      | rejectedT e =>
        simp only [poolSettle, hget, Option.getD_none]
        exact ⟨h, trivial⟩
      | pendingT o =>
        have hnotrace : ph ≠ PoolPhase.racing := by
          rcases hph with rfl | rfl <;> exact fun hcon => nomatch hcon
        cases o with
        | ok v =>
          simp only [poolSettle, hget, Option.getD_some]
          refine ⟨?_, trivial⟩
          show (if ph = PoolPhase.racing then PoolPhase.ready else ph) =
              PoolPhase.catching ∨ _
          rw [if_neg hnotrace]
          exact hph
        | error e =>
          simp only [poolSettle, hget, Option.getD_some]
          refine ⟨?_, trivial⟩
          show (if ph = PoolPhase.racing then PoolPhase.catching else ph) =
              PoolPhase.catching ∨ _
          rw [if_neg hnotrace]
          exact hph

theorem poolRun_observed {α ε β : Type} (L : Nat) (f : α → Except ε β) :
    ∀ (cs : List PoolChoice) (s : PoolState α ε β), PoolObserved s →
      PoolObserved (poolRun L f s cs) ∧
        (poolRun L f s cs).remaining = s.remaining
  | [], _, h => ⟨h, rfl⟩
  | c :: cs, s, h => by
    obtain ⟨h₁, h₂⟩ := poolStep_observed L f s c h
    obtain ⟨h₃, h₄⟩ := poolRun_observed L f cs _ h₁
    exact ⟨h₃, h₄.trans h₂⟩

theorem poolErrCount_append_value {ε β : Type} (out : List (PoolEvent ε β))
    (v : β) : poolErrCount (out ++ [.value v]) = poolErrCount out := by
  simp [poolErrCount, List.countP_append, List.countP_cons,
    PoolEvent.isAggregate]

theorem poolErrCount_append_closed {ε β : Type} (out : List (PoolEvent ε β)) :
    poolErrCount (out ++ [(.closedEv : PoolEvent ε β)]) = poolErrCount out := by
  simp [poolErrCount, List.countP_append, List.countP_cons,
    PoolEvent.isAggregate]

theorem poolErrCount_append_agg {ε β : Type} (out : List (PoolEvent ε β))
    (errs : List ε) :
    poolErrCount (out ++ [(.aggregateError errs : PoolEvent ε β)]) =
      poolErrCount out + 1 := by
  simp [poolErrCount, List.countP_append, List.countP_cons,
    PoolEvent.isAggregate]

theorem poolValueCount_append_value {ε β : Type} (out : List (PoolEvent ε β))
    (v : β) : poolValueCount (out ++ [.value v]) = poolValueCount out + 1 := by
  simp [poolValueCount, List.countP_append, List.countP_cons,
    PoolEvent.isValueEv]

theorem poolValueCount_append_closed {ε β : Type}
    (out : List (PoolEvent ε β)) :
    poolValueCount (out ++ [(.closedEv : PoolEvent ε β)]) =
      poolValueCount out := by
  simp [poolValueCount, List.countP_append, List.countP_cons,
    PoolEvent.isValueEv]

theorem poolValueCount_append_agg {ε β : Type} (out : List (PoolEvent ε β))
    (errs : List ε) :
    poolValueCount (out ++ [(.aggregateError errs : PoolEvent ε β)]) =
      poolValueCount out := by
  simp [poolValueCount, List.countP_append, List.countP_cons,
    PoolEvent.isValueEv]

theorem poolCountRejected_append_pending {ε β : Type}
    (l : List (PoolTask ε β)) (o : Except ε β) :
    poolCountRejected (l ++ [.pendingT o]) = poolCountRejected l := by
  simp [poolCountRejected, List.countP_append, List.countP_cons,
    PoolTask.isRejected]

/-- Output-structure invariant of the pool machine: while the loop has not
written the aggregate error there is no aggregate event at all; once it has,
the output is everything written so far followed by exactly one aggregate
error whose entries enumerate every rejection collected, and every task has
settled; the number of `value` events always equals the number of successful
settlements, and the rejected tasks still sitting in `executing` count every
rejection so far. -/
def PoolOutInv {α ε β : Type} (s : PoolState α ε β) : Prop :=
  (s.phase ≠ .erroredPh → poolErrCount s.output = 0) ∧
  (s.phase = .erroredPh →
    ∃ pre errs, s.output = pre ++ [.aggregateError errs] ∧
      poolErrCount pre = 0 ∧ errs.length = s.failCount ∧
      s.executing.all (fun t => t.isRejected) = true) ∧
  poolValueCount s.output = s.okSettled ∧
  poolCountRejected s.executing = s.failCount

theorem poolStep_outInv {α ε β : Type} (L : Nat) (f : α → Except ε β)
    (s : PoolState α ε β) (c : PoolChoice) (h : PoolOutInv s) :
    PoolOutInv ((poolStep L f s c).getD s) := by
  obtain ⟨rem, ex, out, ph, la, paf, okc, fc⟩ := s
  obtain ⟨h₁, h₂, h₃, h₄⟩ := h
  dsimp only at h₁ h₂ h₃ h₄
  cases c with
  | loopStep =>
    cases ph with
    | ready =>
      have h₀ : poolErrCount out = 0 := h₁ (fun hcon => nomatch hcon)
      cases rem with
      | nil =>
        exact ⟨fun _ => h₀, (fun hcon => nomatch hcon), h₃, h₄⟩
      | cons a rest =>
        simp only [poolStep, poolLoopStep, Option.getD_some]
        refine ⟨fun _ => h₀, ?_, h₃, ?_⟩
        · dsimp only
          split
          · split
            · exact fun hcon => nomatch hcon
            · exact fun hcon => nomatch hcon
          · exact fun hcon => nomatch hcon
        · dsimp only
          rw [poolCountRejected_append_pending]
          exact h₄
    | racing => exact ⟨h₁, h₂, h₃, h₄⟩
    | awaitingAll =>
      have h₀ : poolErrCount out = 0 := h₁ (fun hcon => nomatch hcon)
      simp only [poolStep, poolLoopStep]
      split
      · simp only [Option.getD_some]
        exact ⟨fun _ => h₀, (fun hcon => nomatch hcon), h₃, h₄⟩
      · split
        · simp only [Option.getD_some]
          refine ⟨fun _ => ?_, (fun hcon => nomatch hcon), ?_, h₄⟩
          · dsimp only
            rw [poolErrCount_append_closed]
            exact h₀
          · dsimp only
            rw [poolValueCount_append_closed]
            exact h₃
        · simp only [Option.getD_none]
          exact ⟨h₁, h₂, h₃, h₄⟩
    | catching =>
      have h₀ : poolErrCount out = 0 := h₁ (fun hcon => nomatch hcon)
      simp only [poolStep, poolLoopStep]
      split
      · rename_i hall
        simp only [Option.getD_some]
        refine ⟨fun hcon => absurd rfl hcon, fun _ => ?_, ?_, h₄⟩
        · refine ⟨out, ex.filterMap (fun t => t.reasonOf), rfl, h₀, ?_, hall⟩
          rw [pool_filterMap_reason_length]
          exact h₄
        · dsimp only
          rw [poolValueCount_append_agg]
          exact h₃
      · simp only [Option.getD_none]
        exact ⟨h₁, h₂, h₃, h₄⟩
    | closedPh => exact ⟨h₁, h₂, h₃, h₄⟩
    | erroredPh => exact ⟨h₁, h₂, h₃, h₄⟩
  | settle i =>
    simp only [poolStep]
    cases hget : ex.get? i with
    | none =>
      simp only [poolSettle, hget, Option.getD_none]
      exact ⟨h₁, h₂, h₃, h₄⟩
    | some t =>
      cases t with
      | rejectedT e =>
        simp only [poolSettle, hget, Option.getD_none]
        exact ⟨h₁, h₂, h₃, h₄⟩
      | pendingT o =>
        have hne : ph ≠ PoolPhase.erroredPh := by
          intro hcon
          obtain ⟨pre, errs, hout, hpre, hlenf, hall⟩ := h₂ hcon
          have hmem := List.get?_mem hget
          have := (List.all_eq_true.mp hall) _ hmem
          simp [PoolTask.isRejected] at this
        have h₀ : poolErrCount out = 0 := h₁ hne
        cases o with
        | ok v =>
          simp only [poolSettle, hget, Option.getD_some]
          refine ⟨fun _ => ?_, ?_, ?_, ?_⟩
          · dsimp only
            rw [poolErrCount_append_value]
            exact h₀
          · dsimp only
            by_cases hrace : ph = PoolPhase.racing
            · rw [if_pos hrace]
              exact fun hcon => nomatch hcon
            · rw [if_neg hrace]
              exact fun hcon => absurd hcon hne
          · dsimp only
            rw [poolValueCount_append_value]
            omega
          · dsimp only
            rw [poolCountRejected_eraseIdx_pending ex i (Except.ok v) hget]
            exact h₄
        | error e =>
          simp only [poolSettle, hget, Option.getD_some]
          refine ⟨fun _ => h₀, ?_, h₃, ?_⟩
          · dsimp only
            by_cases hrace : ph = PoolPhase.racing
            · rw [if_pos hrace]
              exact fun hcon => nomatch hcon
            · rw [if_neg hrace]
              exact fun hcon => absurd hcon hne
          · dsimp only
            rw [poolCountRejected_set_rejected ex i (Except.error e) e hget]
            omega

theorem poolRun_outInv {α ε β : Type} (L : Nat) (f : α → Except ε β) :
    ∀ (cs : List PoolChoice) (s : PoolState α ε β),
      PoolOutInv s → PoolOutInv (poolRun L f s cs)
  | [], _, h => h
  | c :: cs, s, h =>
    poolRun_outInv L f cs _ (poolStep_outInv L f s c h)

theorem poolInit_outInv {α ε β : Type} (items : List α) :
    PoolOutInv (poolInit (ε := ε) (β := β) items) := by
  refine ⟨?_, ?_, ?_, ?_⟩
  · intro _
    simp [poolInit, poolErrCount]
  · intro hcon
    simp [poolInit] at hcon
  · simp [poolInit, poolValueCount]
  · simp [poolInit, poolCountRejected]

/-! ## Theorems: pooledMap failure policy (C2) -/

/-- C2 (amended): once the producer loop has observed a transformation
failure (it observes rejections at `await Promise.race` when the pool is
saturated, or at the final `await Promise.all` — not at the instant the
rejection settles), no further inputs are pulled from the source; every
transformation that settles successfully has its value forwarded downstream
(also while draining in the catch block); at most one aggregate failure is
ever delivered and any aggregate failure is the last event, bundling every
collected rejection. -/
theorem pooledMap_failure_policy {α ε β : Type} (L : Nat) (items : List α)
    (f : α → Except ε β) (cs cs₂ : List PoolChoice) :
    (PoolObserved (poolRun L f (poolInit items) cs) →
      (poolRun L f (poolRun L f (poolInit items) cs) cs₂).remaining =
        (poolRun L f (poolInit items) cs).remaining) ∧
    poolErrCount (poolRun L f (poolInit items) cs).output ≤ 1 ∧
    (∀ ev ∈ (poolRun L f (poolInit items) cs).output.dropLast,
      PoolEvent.isAggregate ev = false) ∧
    poolValueCount (poolRun L f (poolInit items) cs).output =
      (poolRun L f (poolInit items) cs).okSettled ∧
    ((poolRun L f (poolInit items) cs).phase = .erroredPh →
      ∃ errs, (poolRun L f (poolInit items) cs).output.getLast? =
          some (.aggregateError errs) ∧
        errs.length = (poolRun L f (poolInit items) cs).failCount) := by
  have hinv := poolRun_outInv L f cs _ (poolInit_outInv items)
  obtain ⟨h₁, h₂, h₃, h₄⟩ := hinv
  refine ⟨fun hobs => (poolRun_observed L f cs₂ _ hobs).2, ?_, ?_, h₃, ?_⟩
  · by_cases herr : (poolRun L f (poolInit items) cs).phase = .erroredPh
    · obtain ⟨pre, errs, hout, hpre, -, -⟩ := h₂ herr
      rw [hout, poolErrCount_append_agg, hpre]
    · rw [h₁ herr]
      omega
  · by_cases herr : (poolRun L f (poolInit items) cs).phase = .erroredPh
    · obtain ⟨pre, errs, hout, hpre, -, -⟩ := h₂ herr
      rw [hout, List.dropLast_concat]
      intro ev hmem
      have := (List.countP_eq_zero.mp hpre) ev hmem
      simpa using this
    · intro ev hmem
      have hmem₂ : ev ∈ (poolRun L f (poolInit items) cs).output :=
        List.dropLast_subset _ hmem
      have := (List.countP_eq_zero.mp (h₁ herr)) ev hmem₂
      simpa using this
  · intro herr
    obtain ⟨pre, errs, hout, -, hlen, -⟩ := h₂ herr
    exact ⟨errs, by rw [hout, List.getLast?_concat], hlen⟩

/-- Witness for `pooledMap_failure_policy`: `L = 1` over the single input `1`
whose transformation rejects; the schedule reaches the terminal aggregate
error, discharging both implications. -/
theorem pooledMap_failure_policy_witness :
    (poolRun 1 (fun _ => (Except.error 5 : Except Nat Nat))
      (poolRun 1 (fun _ => (Except.error 5 : Except Nat Nat)) (poolInit [1])
        [.loopStep, .settle 0, .loopStep]) [.loopStep]).remaining =
      (poolRun 1 (fun _ => (Except.error 5 : Except Nat Nat)) (poolInit [1])
        [.loopStep, .settle 0, .loopStep]).remaining ∧
    poolErrCount (poolRun 1 (fun _ => (Except.error 5 : Except Nat Nat))
      (poolInit [1]) [.loopStep, .settle 0, .loopStep]).output ≤ 1 ∧
    (∃ errs, (poolRun 1 (fun _ => (Except.error 5 : Except Nat Nat))
        (poolInit [1])
        [.loopStep, .settle 0, .loopStep]).output.getLast? =
          some (.aggregateError errs) ∧
      errs.length = (poolRun 1 (fun _ => (Except.error 5 : Except Nat Nat))
        (poolInit [1]) [.loopStep, .settle 0, .loopStep]).failCount) := by
  have h := pooledMap_failure_policy 1 [1]
    (fun _ => (Except.error 5 : Except Nat Nat))
    [.loopStep, .settle 0, .loopStep] [.loopStep]
  exact ⟨h.1 (Or.inr (by decide)), h.2.1, h.2.2.2.2 (by decide)⟩

/-- C2 counterexample: with `L = 3` over inputs `[1, 2, 3]`, input 1's
transformation rejecting, and the exact interleaving JavaScript produces for a
plain array source (pull 1, pull 2, the rejection of `f 1` settles, pull 3),
input 3 is still pulled from the source after the transformation function has
already raised — refuting that no further inputs are pulled once the
transformation raises. -/
theorem pooledMap_pull_after_raise_counterexample :
    (poolRun 3
      (fun n => if n = 1 then Except.error 10 else Except.ok (n * 10))
      (poolInit [1, 2, 3])
      [.loopStep, .loopStep, .settle 0, .loopStep]).pullAfterFailure = true ∧
    (poolRun 3
      (fun n => if n = 1 then Except.error 10 else Except.ok (n * 10))
      (poolInit [1, 2, 3])
      [.loopStep, .loopStep, .settle 0, .loopStep]).remaining = [] := by
  exact ⟨by decide, by decide⟩

/-! ## Theorems: pooledMap edge cases (C8) -/

theorem poolStep_zero_eq_one {α ε β : Type} (f : α → Except ε β)
    (s : PoolState α ε β) (c : PoolChoice) :
    poolStep 0 f s c = poolStep 1 f s c := by
  cases c with
  | settle i => rfl
  | loopStep =>
    obtain ⟨rem, ex, out, ph, la, paf, okc, fc⟩ := s
    cases ph with
    | ready =>
      cases rem with
      | nil => rfl
      | cons a rest =>
        simp only [poolStep, poolLoopStep]
        have h₀ : (0 : Nat) ≤ (ex ++ [PoolTask.pendingT (f a)]).length :=
          Nat.zero_le _
        have h₁ : (1 : Nat) ≤ (ex ++ [PoolTask.pendingT (f a)]).length := by
          simp only [List.length_append, List.length_cons, List.length_nil]
          omega
        rw [if_pos h₀, if_pos h₁]
    | racing => rfl
    | awaitingAll => rfl
    | catching => rfl
    | closedPh => rfl
    | erroredPh => rfl

theorem poolRun_zero_eq_one {α ε β : Type} (f : α → Except ε β) :
    ∀ (cs : List PoolChoice) (s : PoolState α ε β),
      poolRun 0 f s cs = poolRun 1 f s cs
  | [], _ => rfl
  | c :: cs, s => by
    simp only [poolRun]
    rw [poolStep_zero_eq_one f s c]
    exact poolRun_zero_eq_one f cs _

/-- States reachable from an empty source: nothing pulled, nothing launched,
no values and no failures written; the loop only moves from the pull point to
the final wait to the clean close. -/
def PoolEmptyInv {α ε β : Type} (s : PoolState α ε β) : Prop :=
  s.remaining = [] ∧ s.executing = [] ∧
  poolErrCount s.output = 0 ∧ poolValueCount s.output = 0 ∧
  (s.phase = .ready ∨ s.phase = .awaitingAll ∨ s.phase = .closedPh)

theorem poolStep_emptyInv {α ε β : Type} (L : Nat) (f : α → Except ε β)
    (s : PoolState α ε β) (c : PoolChoice) (h : PoolEmptyInv s) :
    PoolEmptyInv ((poolStep L f s c).getD s) := by
  obtain ⟨rem, ex, out, ph, la, paf, okc, fc⟩ := s
  obtain ⟨h₁, h₂, h₃, h₄, h₅⟩ := h
  dsimp only at h₁ h₂ h₃ h₄ h₅
  subst h₁
  subst h₂
  cases c with
  | settle i =>
    have hget : (([] : List (PoolTask ε β)).get? i) = none := by
      cases i <;> rfl
    simp only [poolStep, poolSettle, hget, Option.getD_none]
    exact ⟨rfl, rfl, h₃, h₄, h₅⟩
  | loopStep =>
    rcases h₅ with h₅ | h₅ | h₅ <;> subst h₅
    · exact ⟨rfl, rfl, h₃, h₄, Or.inr (Or.inl rfl)⟩
    · have hstep : poolStep L f
          ⟨[], [], out, .awaitingAll, la, paf, okc, fc⟩ PoolChoice.loopStep =
          some ⟨[], [], out ++ [.closedEv], .closedPh, la, paf, okc, fc⟩ := rfl
      rw [hstep, Option.getD_some]
      refine ⟨rfl, rfl, ?_, ?_, Or.inr (Or.inr rfl)⟩
      · rw [poolErrCount_append_closed]
        exact h₃
      · rw [poolValueCount_append_closed]
        exact h₄
    · exact ⟨rfl, rfl, h₃, h₄, Or.inr (Or.inr rfl)⟩

theorem poolRun_emptyInv {α ε β : Type} (L : Nat) (f : α → Except ε β) :
    ∀ (cs : List PoolChoice) (s : PoolState α ε β),
      PoolEmptyInv s → PoolEmptyInv (poolRun L f s cs)
  | [], _, h => h
  | c :: cs, s, h =>
    poolRun_emptyInv L f cs _ (poolStep_emptyInv L f s c h)

/-- C8 (amended): `pooledMap` performs no validation of the concurrency
limit: with `poolLimit = 0` (a value below 1) every run proceeds exactly as
with `poolLimit = 1` (the saturation check `executing.length >= poolLimit` is
true after every launch in both cases); and over an empty source sequence
every run, at any limit, produces no value events and no failure event. -/
theorem pooledMap_no_validation_and_empty_source {α ε β : Type}
    (f : α → Except ε β) :
    (∀ (items : List α) (cs : List PoolChoice),
      poolRun 0 f (poolInit items) cs = poolRun 1 f (poolInit items) cs) ∧
    (∀ (L : Nat) (cs : List PoolChoice),
      poolErrCount (poolRun L f (poolInit ([] : List α)) cs).output = 0 ∧
      poolValueCount (poolRun L f (poolInit ([] : List α)) cs).output = 0) := by
  constructor
  · intro items cs
    exact poolRun_zero_eq_one f cs _
  · intro L cs
    have h := poolRun_emptyInv L f cs (poolInit ([] : List α))
      ⟨rfl, rfl, by simp [poolInit, poolErrCount],
        by simp [poolInit, poolValueCount], Or.inl rfl⟩
    exact ⟨h.2.2.1, h.2.2.2.1⟩

/-- C8 counterexample: `pooledMap` called with `poolLimit = 0` does not
reject the configuration — the run proceeds, maps its input and closes the
stream cleanly with no error of any kind. -/
theorem pooledMap_accepts_zero_limit_counterexample :
    (poolRun 0 (fun n => (Except.ok (n + 1) : Except Nat Nat)) (poolInit [7])
      [.loopStep, .settle 0, .loopStep, .loopStep]).output =
      [.value 8, .closedEv] ∧
    poolErrCount (poolRun 0 (fun n => (Except.ok (n + 1) : Except Nat Nat))
      (poolInit [7])
      [.loopStep, .settle 0, .loopStep, .loopStep]).output = 0 := by
  exact ⟨by decide, by decide⟩

/-! ## Stream multiplexer (`MuxAsyncIterator`, `async/mux_async_iterator.ts`)

`MuxAsyncIterator` keeps `iteratorCount` (incremented by `add`, decremented
when a source reports done), `yields` (values delivered by sources, each
tagged with its source so its next pull can be re-issued), `throws` (errors
raised by sources), and a shared `signal`.  Each registered source is
embedded as a predetermined script: a list of values it will yield followed
by either clean exhaustion or a rejection.  `callIteratorNext` completions
are scheduler choices; the `iterate` async-generator loop (check the count,
await the signal, drain `yields` re-issuing pulls, re-throw a collected
failure or clear and loop) advances through explicit program-counter steps.
A `throw e` inside the drain terminates the generator at the first error, so
the statement clearing `throws` after the re-raise loop is unreachable and
`throws` is never cleared. -/

inductive SrcStatus where
  /-- an outstanding `next()` call is in flight -/
  | pulling
  /-- its latest value sits in `yields`; no outstanding pull -/
  | queued
  /-- reported done; `iteratorCount` was decremented -/
  | doneS
  /-- its `next()` rejected; it is never pulled again -/
  | thrown
deriving DecidableEq, Repr

structure MSource (ε τ : Type) where
  /-- values the source will still produce, in order -/
  vals : List τ
  /-- `none`: it then reports done; `some e`: its next pull rejects with `e` -/
  fin : Option ε
  status : SrcStatus
deriving DecidableEq, Repr

def MSource.isActive {ε τ : Type} (src : MSource ε τ) : Bool :=
  match src.status with
  | .doneS => false
  | _ => true

def MSource.isThrown {ε τ : Type} (src : MSource ε τ) : Bool :=
  match src.status with
  | .thrown => true
  | _ => false

inductive MuxPC where
  /-- at the `while (this.iteratorCount > 0)` test -/
  | atCheck
  /-- suspended at `await this.signal` -/
  | atSignal
  /-- inside the for-loop over `yields`, at index `i` -/
  | drain (i : Nat)
  /-- the loop exited; the generator returned cleanly -/
  | finished
  /-- a collected failure was re-thrown; the generator is dead -/
  | raised
deriving DecidableEq, Repr

inductive MuxEvent (ε τ : Type) where
  /-- a multiplexed value yielded to the consumer -/
  | value (v : τ)
  /-- a failure thrown to the consumer -/
  | errorEv (e : ε)
  /-- clean termination of the combined sequence -/
  | doneEv
deriving DecidableEq, Repr

structure MuxState (ε τ : Type) where
  sources : List (MSource ε τ)
  iteratorCount : Nat
  yields : List (Nat × τ)
  throws : List ε
  signalResolved : Bool
  pc : MuxPC
  output : List (MuxEvent ε τ)
deriving DecidableEq, Repr

/-- A multiplexer over the given source scripts, every source registered via
`add` (which increments the count and issues the first pull) and the combined
iteration about to run. -/
def muxInit {ε τ : Type} (srcs : List (List τ × Option ε)) : MuxState ε τ :=
  { sources := srcs.map (fun p => ⟨p.1, p.2, .pulling⟩)
    iteratorCount := srcs.length
    yields := []
    throws := []
    signalResolved := false
    pc := .atCheck
    output := [] }

/-- Completion of the outstanding `callIteratorNext` of source `j`: a value is
pushed onto `yields` tagged with its source, exhaustion decrements
`iteratorCount`, a rejection is pushed onto `throws`; in every case the shared
signal is resolved. -/
def muxCompletePull {ε τ : Type} (s : MuxState ε τ) (j : Nat) :
    Option (MuxState ε τ) :=
  match s.sources.get? j with
  | none => none
  | some src =>
    match src.status with
    | .pulling =>
      match src.vals with
      | v :: rest =>
        some { s with
          sources := s.sources.set j ⟨rest, src.fin, .queued⟩
          yields := s.yields ++ [(j, v)]
          signalResolved := true }
      | [] =>
        match src.fin with
        | none =>
          some { s with
            sources := s.sources.set j ⟨[], none, .doneS⟩
            iteratorCount := s.iteratorCount - 1
            signalResolved := true }
        | some e =>
          some { s with
            sources := s.sources.set j ⟨[], some e, .thrown⟩
            throws := s.throws ++ [e]
            signalResolved := true }
    | _ => none

/-- One resumption of the `iterate` loop: the `while` test, the `await` of the
signal, one iteration of the drain loop (yield the value, re-issue that
source's pull), or the post-drain step (re-throw the first collected failure,
or clear `yields` and reset the signal). -/
def muxLoopStep {ε τ : Type} (s : MuxState ε τ) : Option (MuxState ε τ) :=
  match s.pc with
  | .atCheck =>
    if s.iteratorCount = 0 then
      some { s with pc := .finished, output := s.output ++ [.doneEv] }
    else some { s with pc := .atSignal }
  | .atSignal =>
    if s.signalResolved then some { s with pc := .drain 0 } else none
  | .drain i =>
    match s.yields.get? i with
    | some jv =>
      some { s with
        output := s.output ++ [.value jv.2]
        sources := match s.sources.get? jv.1 with
          | some src => s.sources.set jv.1 ⟨src.vals, src.fin, .pulling⟩
          | none => s.sources
        pc := .drain (i + 1) }
    | none =>
      match s.throws with
      | e :: _ =>
        some { s with output := s.output ++ [.errorEv e], pc := .raised }
      | [] =>
        some { s with yields := [], signalResolved := false, pc := .atCheck }
  | .finished => none
  | .raised => none

inductive MuxChoice where
  | loopStep
  | completePull (j : Nat)
deriving DecidableEq, Repr

def muxStep {ε τ : Type} (s : MuxState ε τ) :
    MuxChoice → Option (MuxState ε τ)
  | .loopStep => muxLoopStep s
  | .completePull j => muxCompletePull s j

/-- Run the multiplexer over a list of scheduler choices; a choice that is
not enabled in the current state is skipped. -/
def muxRun {ε τ : Type} (s : MuxState ε τ) : List MuxChoice → MuxState ε τ
  | [] => s
  | c :: cs => muxRun ((muxStep s c).getD s) cs

def MuxEvent.isErrorEv {ε τ : Type} : MuxEvent ε τ → Bool
  | .errorEv _ => true
  | _ => false

/-- Number of error events delivered to the consumer. -/
def muxErrCount {ε τ : Type} (out : List (MuxEvent ε τ)) : Nat :=
  out.countP (fun ev => ev.isErrorEv)

theorem muxErrCount_append_value {ε τ : Type} (out : List (MuxEvent ε τ))
    (v : τ) : muxErrCount (out ++ [.value v]) = muxErrCount out := by
  simp [muxErrCount, List.countP_append, List.countP_cons, MuxEvent.isErrorEv]

theorem muxErrCount_append_done {ε τ : Type} (out : List (MuxEvent ε τ)) :
    muxErrCount (out ++ [(.doneEv : MuxEvent ε τ)]) = muxErrCount out := by
  simp [muxErrCount, List.countP_append, List.countP_cons, MuxEvent.isErrorEv]

theorem muxErrCount_append_error {ε τ : Type} (out : List (MuxEvent ε τ))
    (e : ε) : muxErrCount (out ++ [.errorEv e]) = muxErrCount out + 1 := by
  simp [muxErrCount, List.countP_append, List.countP_cons, MuxEvent.isErrorEv]

/-- Error-delivery discipline of the combined iteration: before any re-throw,
no error event has been delivered; after the re-throw, the output is what was
delivered before plus exactly one error event, that error is the first entry
of the (uncleared) `throws` list, and the generator is dead. -/
def MuxRaisedInv {ε τ : Type} (s : MuxState ε τ) : Prop :=
  (s.pc ≠ .raised → muxErrCount s.output = 0) ∧
  (s.pc = .raised → ∃ pre e rest, s.output = pre ++ [.errorEv e] ∧
    muxErrCount pre = 0 ∧ s.throws = e :: rest)

theorem muxStep_raisedInv {ε τ : Type} (s : MuxState ε τ) (c : MuxChoice)
    (h : MuxRaisedInv s) : MuxRaisedInv ((muxStep s c).getD s) := by
  obtain ⟨srcs, cnt, ys, ts, sig, pc, out⟩ := s
  obtain ⟨h₁, h₂⟩ := h
  dsimp only at h₁ h₂
  cases c with
  | completePull j =>
    simp only [muxStep]
    cases hget : srcs.get? j with
    | none =>
      simp only [muxCompletePull, hget, Option.getD_none]
      exact ⟨h₁, h₂⟩
    | some src =>
      cases hst : src.status with
      | pulling =>
        cases hv : src.vals with
        | cons v rest =>
          simp only [muxCompletePull, hget, hst, hv, Option.getD_some]
          exact ⟨h₁, h₂⟩
        | nil =>
          cases hf : src.fin with
          | none =>
            simp only [muxCompletePull, hget, hst, hv, hf, Option.getD_some]
            exact ⟨h₁, h₂⟩
          | some e =>
            simp only [muxCompletePull, hget, hst, hv, hf, Option.getD_some]
            refine ⟨h₁, fun hr => ?_⟩
            obtain ⟨pre, e₂, rest, hout, hpre, hts⟩ := h₂ hr
            exact ⟨pre, e₂, rest ++ [e], hout, hpre, by rw [hts]; rfl⟩
      | queued =>
        simp only [muxCompletePull, hget, hst, Option.getD_none]
        exact ⟨h₁, h₂⟩
      | doneS =>
        simp only [muxCompletePull, hget, hst, Option.getD_none]
        exact ⟨h₁, h₂⟩
      | thrown =>
        simp only [muxCompletePull, hget, hst, Option.getD_none]
        exact ⟨h₁, h₂⟩
  | loopStep =>
    simp only [muxStep]
    cases pc with
    | atCheck =>
      have h₀ : muxErrCount out = 0 := h₁ (fun hcon => nomatch hcon)
      simp only [muxLoopStep]
      split
      · simp only [Option.getD_some]
        refine ⟨fun _ => ?_, fun hr => nomatch hr⟩
        dsimp only
        rw [muxErrCount_append_done]
        exact h₀
      · simp only [Option.getD_some]
        exact ⟨fun _ => h₀, fun hr => nomatch hr⟩
    | atSignal =>
      have h₀ : muxErrCount out = 0 := h₁ (fun hcon => nomatch hcon)
      simp only [muxLoopStep]
      split
      · simp only [Option.getD_some]
        exact ⟨fun _ => h₀, fun hr => nomatch hr⟩
      · simp only [Option.getD_none]
        exact ⟨h₁, h₂⟩
    | drain i =>
      have h₀ : muxErrCount out = 0 := h₁ (fun hcon => nomatch hcon)
      simp only [muxLoopStep]
      cases hy : ys.get? i with
      | some jv =>
        simp only [Option.getD_some]
        refine ⟨fun _ => ?_, fun hr => nomatch hr⟩
        dsimp only
        rw [muxErrCount_append_value]
        exact h₀
      | none =>
        cases ht : ts with
        | cons e rest =>
          simp only [Option.getD_some]
          exact ⟨fun hcon => absurd rfl hcon,
            fun _ => ⟨out, e, rest, rfl, h₀, rfl⟩⟩
        | nil =>
          simp only [Option.getD_some]
          exact ⟨fun _ => h₀, fun hr => nomatch hr⟩
    | finished =>
      simp only [muxLoopStep, Option.getD_none]
      exact ⟨h₁, h₂⟩
    | raised =>
      simp only [muxLoopStep, Option.getD_none]
      exact ⟨h₁, h₂⟩

theorem muxRun_raisedInv {ε τ : Type} :
    ∀ (cs : List MuxChoice) (s : MuxState ε τ),
      MuxRaisedInv s → MuxRaisedInv (muxRun s cs)
  | [], _, h => h
  | c :: cs, s, h => muxRun_raisedInv cs _ (muxStep_raisedInv s c h)

/-- After a re-throw the generator is dead: no step changes the delivered
output or revives the program counter (outstanding pulls may still settle
and mutate the bookkeeping, but nothing reaches the consumer). -/
theorem muxStep_raised_frozen {ε τ : Type} (s : MuxState ε τ) (c : MuxChoice)
    (h : s.pc = .raised) :
    ((muxStep s c).getD s).output = s.output ∧
      ((muxStep s c).getD s).pc = .raised := by
  obtain ⟨srcs, cnt, ys, ts, sig, pc, out⟩ := s
  dsimp only at h
  subst h
  cases c with
  | loopStep => exact ⟨by trivial, by trivial⟩
  | completePull j =>
    simp only [muxStep]
    cases hget : srcs.get? j with
    | none =>
      simp only [muxCompletePull, hget, Option.getD_none]
      exact ⟨by trivial, by trivial⟩
    | some src =>
      cases hst : src.status with
      | pulling =>
        cases hv : src.vals with
        | cons v rest =>
          simp only [muxCompletePull, hget, hst, hv, Option.getD_some]
          exact ⟨by trivial, by trivial⟩
        | nil =>
          cases hf : src.fin with
          | none =>
            simp only [muxCompletePull, hget, hst, hv, hf, Option.getD_some]
            exact ⟨by trivial, by trivial⟩
          | some e =>
            simp only [muxCompletePull, hget, hst, hv, hf, Option.getD_some]
            exact ⟨by trivial, by trivial⟩
      | queued =>
        simp only [muxCompletePull, hget, hst, Option.getD_none]
        exact ⟨by trivial, by trivial⟩
      | doneS =>
        simp only [muxCompletePull, hget, hst, Option.getD_none]
        exact ⟨by trivial, by trivial⟩
      | thrown =>
        simp only [muxCompletePull, hget, hst, Option.getD_none]
        exact ⟨by trivial, by trivial⟩

theorem muxRun_raised_frozen {ε τ : Type} :
    ∀ (cs : List MuxChoice) (s : MuxState ε τ), s.pc = .raised →
      (muxRun s cs).output = s.output ∧ (muxRun s cs).pc = .raised
  | [], _, h => ⟨rfl, h⟩
  | c :: cs, s, h => by
    obtain ⟨h₁, h₂⟩ := muxStep_raised_frozen s c h
    obtain ⟨h₃, h₄⟩ := muxRun_raised_frozen cs _ h₂
    exact ⟨h₃.trans h₁, h₄⟩

/-! ## Theorems: multiplexer failure drain (C4) -/

/-- C4 (amended): when failures have accumulated at the drain point of the
combined iteration, only the first accumulated failure is re-raised and the
combined iteration terminates at that throw: at most one error event is ever
delivered, any error event is the last event, and in the dead generator the
raised error is the head of the accumulation list, which is never cleared
(the clearing statement after the re-raise loop is unreachable); no further
event is ever delivered. -/
theorem muxAsyncIterator_drain_raises_first_only {ε τ : Type}
    (srcs : List (List τ × Option ε)) (cs cs₂ : List MuxChoice) :
    muxErrCount (muxRun (muxInit srcs) cs).output ≤ 1 ∧
    (∀ ev ∈ (muxRun (muxInit srcs) cs).output.dropLast,
      MuxEvent.isErrorEv ev = false) ∧
    ((muxRun (muxInit srcs) cs).pc = .raised →
      ∃ e rest, (muxRun (muxInit srcs) cs).throws = e :: rest ∧
        (muxRun (muxInit srcs) cs).output.getLast? = some (.errorEv e) ∧
        (muxRun (muxRun (muxInit srcs) cs) cs₂).output =
          (muxRun (muxInit srcs) cs).output ∧
        (muxRun (muxRun (muxInit srcs) cs) cs₂).pc = .raised) := by
  have hinv := muxRun_raisedInv cs (muxInit srcs)
    ⟨fun _ => by simp [muxInit, muxErrCount], fun hcon => by
      simp [muxInit] at hcon⟩
  obtain ⟨h₁, h₂⟩ := hinv
  refine ⟨?_, ?_, ?_⟩
  · by_cases hr : (muxRun (muxInit srcs) cs).pc = .raised
    · obtain ⟨pre, e, rest, hout, hpre, -⟩ := h₂ hr
      rw [hout, muxErrCount_append_error, hpre]
    · rw [h₁ hr]
      omega
  · by_cases hr : (muxRun (muxInit srcs) cs).pc = .raised
    · obtain ⟨pre, e, rest, hout, hpre, -⟩ := h₂ hr
      rw [hout, List.dropLast_concat]
      intro ev hmem
      have := (List.countP_eq_zero.mp hpre) ev hmem
      simpa using this
    · intro ev hmem
      have hmem₂ := List.dropLast_subset _ hmem
      have := (List.countP_eq_zero.mp (h₁ hr)) ev hmem₂
      simpa using this
  · intro hr
    obtain ⟨pre, e, rest, hout, hpre, hts⟩ := h₂ hr
    obtain ⟨hfr₁, hfr₂⟩ := muxRun_raised_frozen cs₂ _ hr
    exact ⟨e, rest, hts, by rw [hout, List.getLast?_concat], hfr₁, hfr₂⟩

/-- Witness for `muxAsyncIterator_drain_raises_first_only` on a concrete
multiplexer whose two sources both fail immediately, with a schedule that
reaches the re-throw. -/
theorem muxAsyncIterator_drain_raises_first_only_witness :
    muxErrCount (muxRun (muxInit ([([], some 1), ([], some 2)] :
        List (List Nat × Option Nat)))
      [.completePull 0, .completePull 1, .loopStep, .loopStep,
        .loopStep]).output ≤ 1 ∧
    (∃ e rest, (muxRun (muxInit ([([], some 1), ([], some 2)] :
        List (List Nat × Option Nat)))
      [.completePull 0, .completePull 1, .loopStep, .loopStep,
        .loopStep]).throws = e :: rest ∧
      (muxRun (muxInit ([([], some 1), ([], some 2)] :
          List (List Nat × Option Nat)))
        [.completePull 0, .completePull 1, .loopStep, .loopStep,
          .loopStep]).output.getLast? = some (.errorEv e) ∧
      (muxRun (muxRun (muxInit ([([], some 1), ([], some 2)] :
          List (List Nat × Option Nat)))
        [.completePull 0, .completePull 1, .loopStep, .loopStep,
          .loopStep]) [.loopStep, .completePull 0]).output =
        (muxRun (muxInit ([([], some 1), ([], some 2)] :
            List (List Nat × Option Nat)))
          [.completePull 0, .completePull 1, .loopStep, .loopStep,
            .loopStep]).output ∧
      (muxRun (muxRun (muxInit ([([], some 1), ([], some 2)] :
          List (List Nat × Option Nat)))
        [.completePull 0, .completePull 1, .loopStep, .loopStep,
          .loopStep]) [.loopStep, .completePull 0]).pc = .raised) := by
  have h := muxAsyncIterator_drain_raises_first_only
    ([([], some 1), ([], some 2)] : List (List Nat × Option Nat))
    [.completePull 0, .completePull 1, .loopStep, .loopStep, .loopStep]
    [.loopStep, .completePull 0]
  exact ⟨h.1, h.2.2 (by decide)⟩

/-- C4 counterexample: two sources that both fail immediately.  During the
drain both failures have accumulated (`throws = [1, 2]`), yet the iteration
delivers only the first as an error event and dies; failure `2` is never
re-raised and the accumulation list is not cleared — refuting that each
accumulated failure is re-raised (the loop does stop after the first) and
that the list is cleared after re-raising its contents. -/
theorem muxAsyncIterator_second_failure_lost_counterexample :
    (muxRun (muxInit ([([], some 1), ([], some 2)] :
        List (List Nat × Option Nat)))
      [.completePull 0, .completePull 1, .loopStep, .loopStep,
        .loopStep]).output = [.errorEv 1] ∧
    (muxRun (muxInit ([([], some 1), ([], some 2)] :
        List (List Nat × Option Nat)))
      [.completePull 0, .completePull 1, .loopStep, .loopStep,
        .loopStep]).throws = [1, 2] ∧
    (muxRun (muxInit ([([], some 1), ([], some 2)] :
        List (List Nat × Option Nat)))
      [.completePull 0, .completePull 1, .loopStep, .loopStep,
        .loopStep]).pc = .raised := by
  exact ⟨by decide, by decide, by decide⟩

/-! ## List lemmas for the multiplexer invariant -/

theorem muxGet?_set_self {γ : Type} :
    ∀ (l : List γ) (j : Nat) (x y : γ), l.get? j = some x →
      (l.set j y).get? j = some y
  | [], _, _, _, h => by simp at h
  | _ :: _, 0, _, _, _ => rfl
  | a :: l, j + 1, x, y, h => by
    simp only [List.get?] at h
    simp only [List.set, List.get?]
    exact muxGet?_set_self l j x y h

theorem muxGet?_set_ne {γ : Type} :
    ∀ (l : List γ) (j k : Nat) (y : γ), j ≠ k →
      (l.set j y).get? k = l.get? k
  | [], _, _, _, _ => rfl
  | a :: l, 0, 0, y, h => absurd rfl h
  | a :: l, 0, k + 1, y, h => rfl
  | a :: l, j + 1, 0, y, h => rfl
  | a :: l, j + 1, k + 1, y, h => by
    simp only [List.set, List.get?]
    exact muxGet?_set_ne l j k y (fun hc => h (by rw [hc]))

theorem muxGet?_lt_length {γ : Type} :
    ∀ (l : List γ) (i : Nat) (x : γ), l.get? i = some x → i < l.length
  | [], _, _, h => by simp at h
  | a :: l, 0, _, _ => Nat.succ_pos _
  | a :: l, i + 1, x, h => by
    simp only [List.get?] at h
    have := muxGet?_lt_length l i x h
    simp only [List.length_cons]
    omega

theorem muxDrop_get?_cons {γ : Type} :
    ∀ (l : List γ) (i : Nat) (x : γ), l.get? i = some x →
      l.drop i = x :: l.drop (i + 1)
  | [], _, _, h => by simp at h
  | a :: l, 0, x, h => by
    simp only [List.get?] at h
    cases h
    rfl
  | a :: l, i + 1, x, h => by
    simp only [List.get?] at h
    simp only [List.drop]
    exact muxDrop_get?_cons l i x h

theorem muxDrop_append {γ : Type} :
    ∀ (l₁ l₂ : List γ) (i : Nat), i ≤ l₁.length →
      (l₁ ++ l₂).drop i = l₁.drop i ++ l₂
  | _, _, 0, _ => rfl
  | [], _, i + 1, h => by simp at h
  | a :: l₁, l₂, i + 1, h => by
    simp only [List.cons_append, List.drop]
    exact muxDrop_append l₁ l₂ i (by simpa using h)

theorem muxCountP_set {γ : Type} (p : γ → Bool) :
    ∀ (l : List γ) (j : Nat) (x y : γ), l.get? j = some x →
      (l.set j y).countP p + (if p x then 1 else 0) =
        l.countP p + (if p y then 1 else 0)
  | [], _, _, _, h => by simp at h
  | a :: l, 0, x, y, h => by
    simp only [List.get?] at h
    cases h
    simp only [List.set, List.countP_cons]
    omega
  | a :: l, j + 1, x, y, h => by
    simp only [List.get?] at h
    have := muxCountP_set p l j x y h
    simp only [List.set, List.countP_cons]
    omega

theorem muxCountP_set_eq {γ : Type} (p : γ → Bool) (l : List γ) (j : Nat)
    (x y : γ) (hget : l.get? j = some x) (hxy : p x = p y) :
    (l.set j y).countP p = l.countP p := by
  have h := muxCountP_set p l j x y hget
  rw [hxy] at h
  omega

theorem muxCountP_set_incr {γ : Type} (p : γ → Bool) (l : List γ) (j : Nat)
    (x y : γ) (hget : l.get? j = some x) (hx : p x = false)
    (hy : p y = true) : (l.set j y).countP p = l.countP p + 1 := by
  have h := muxCountP_set p l j x y hget
  rw [hx, hy] at h
  simp at h
  omega

theorem muxCountP_set_decr {γ : Type} (p : γ → Bool) (l : List γ) (j : Nat)
    (x y : γ) (hget : l.get? j = some x) (hx : p x = true)
    (hy : p y = false) : (l.set j y).countP p + 1 = l.countP p := by
  have h := muxCountP_set p l j x y hget
  rw [hx, hy] at h
  simp at h
  omega

theorem muxNodup_concat {γ : Type} [DecidableEq γ] (l : List γ) (a : γ)
    (h : l.Nodup) (ha : a ∉ l) : (l ++ [a]).Nodup := by
  simp [List.nodup_append, h, ha]

/-- The entries of `yields` not yet processed by the current drain pass
(everything, outside a drain; nothing, once the generator died on a throw). -/
def muxUndrainedOf {τ : Type} (pc : MuxPC) (ys : List (Nat × τ)) :
    List (Nat × τ) :=
  match pc with
  | .drain i => ys.drop i
  | .raised => []
  | _ => ys

theorem muxUndrainedOf_append {τ : Type} (pc : MuxPC) (ys : List (Nat × τ))
    (x : Nat × τ) (h5 : ∀ i, pc = .drain i → i ≤ ys.length) :
    muxUndrainedOf pc (ys ++ [x]) = muxUndrainedOf pc ys ++ [x] ∨
    muxUndrainedOf pc (ys ++ [x]) = muxUndrainedOf pc ys := by
  cases pc with
  | drain i => exact Or.inl (muxDrop_append ys [x] i (h5 i rfl))
  | raised => exact Or.inr rfl
  | atCheck => exact Or.inl rfl
  | atSignal => exact Or.inl rfl
  | finished => exact Or.inl rfl

/-- Bookkeeping invariant of the multiplexer: `iteratorCount` counts exactly
the sources that have not reported done; `throws` holds exactly one entry per
source whose pull rejected; every unprocessed `yields` entry points at a
source that is queued (its value delivered, its next pull not yet re-issued),
no two unprocessed entries share a source, the drain index never passes the
end of `yields`, and the loop only exits once the count is zero. -/
def MuxInv {ε τ : Type} (s : MuxState ε τ) : Prop :=
  s.iteratorCount = s.sources.countP (fun src => src.isActive) ∧
  s.throws.length = s.sources.countP (fun src => src.isThrown) ∧
  (∀ jv ∈ muxUndrainedOf s.pc s.yields,
    ∃ src, s.sources.get? jv.1 = some src ∧ src.status = .queued) ∧
  ((muxUndrainedOf s.pc s.yields).map Prod.fst).Nodup ∧
  (∀ i, s.pc = .drain i → i ≤ s.yields.length) ∧
  (s.pc = .finished → s.iteratorCount = 0)

theorem muxStep_inv {ε τ : Type} (s : MuxState ε τ) (c : MuxChoice)
    (h : MuxInv s) : MuxInv ((muxStep s c).getD s) := by
  obtain ⟨srcs, cnt, ys, ts, sig, pc, out⟩ := s
  obtain ⟨h₁, h₂, h₃, h₄, h₅, h₆⟩ := h
  dsimp only at h₁ h₂ h₃ h₄ h₅ h₆
  cases c with
  | completePull j =>
    simp only [muxStep]
    cases hget : srcs.get? j with
    | none =>
      simp only [muxCompletePull, hget, Option.getD_none]
      exact ⟨h₁, h₂, h₃, h₄, h₅, h₆⟩
    | some src =>
      obtain ⟨svals, sfin, sstat⟩ := src
      cases sstat with
      | queued =>
        simp only [muxCompletePull, hget, Option.getD_none]
        exact ⟨h₁, h₂, h₃, h₄, h₅, h₆⟩
      | doneS =>
        simp only [muxCompletePull, hget, Option.getD_none]
        exact ⟨h₁, h₂, h₃, h₄, h₅, h₆⟩
      | thrown =>
        simp only [muxCompletePull, hget, Option.getD_none]
        exact ⟨h₁, h₂, h₃, h₄, h₅, h₆⟩
      | pulling =>
        have hjne : ∀ jv ∈ muxUndrainedOf pc ys, jv.1 ≠ j := by
          intro jv hmem heq
          obtain ⟨src', hs', hq'⟩ := h₃ jv hmem
          rw [heq, hget] at hs'
          cases hs'
          exact nomatch hq'
        have hjnotin : j ∉ (muxUndrainedOf pc ys).map Prod.fst := by
          intro hmem
          obtain ⟨jv, hjv, hfst⟩ := List.mem_map.mp hmem
          exact hjne jv hjv hfst
        cases svals with
        | cons v rest =>
          simp only [muxCompletePull, hget, Option.getD_some]
          refine ⟨?_, ?_, ?_, ?_, ?_, ?_⟩
          · dsimp only
            have hc := muxCountP_set_eq (fun src => MSource.isActive src) srcs j
              ⟨v :: rest, sfin, .pulling⟩ ⟨rest, sfin, .queued⟩ hget rfl
            omega
          · dsimp only
            have hc := muxCountP_set_eq (fun src => MSource.isThrown src) srcs j
              ⟨v :: rest, sfin, .pulling⟩ ⟨rest, sfin, .queued⟩ hget rfl
            omega
          · dsimp only
            rcases muxUndrainedOf_append pc ys (j, v) h₅ with happ | happ <;>
              rw [happ]
            · intro jv hmem
              rcases List.mem_append.mp hmem with hmem | hmem
              · obtain ⟨src', hs', hq'⟩ := h₃ jv hmem
                exact ⟨src', by
                  rw [muxGet?_set_ne srcs j jv.1 _ (fun hc =>
                    hjne jv hmem hc.symm)]
                  exact hs', hq'⟩
              · rcases List.mem_singleton.mp hmem with rfl
                exact ⟨⟨rest, sfin, .queued⟩,
                  muxGet?_set_self srcs j _ _ hget, rfl⟩
            · intro jv hmem
              obtain ⟨src', hs', hq'⟩ := h₃ jv hmem
              exact ⟨src', by
                rw [muxGet?_set_ne srcs j jv.1 _ (fun hc =>
                  hjne jv hmem hc.symm)]
                exact hs', hq'⟩
          · dsimp only
            rcases muxUndrainedOf_append pc ys (j, v) h₅ with happ | happ <;>
              rw [happ]
            · rw [List.map_append]
              exact muxNodup_concat _ j h₄ hjnotin
            · exact h₄
          · dsimp only
            intro i hi
            have := h₅ i hi
            simp only [List.length_append, List.length_cons, List.length_nil]
            omega
          · dsimp only
            exact h₆
        | nil =>
          cases sfin with
          | none =>
            simp only [muxCompletePull, hget, Option.getD_some]
            refine ⟨?_, ?_, ?_, ?_, h₅, ?_⟩
            · dsimp only
              have hc := muxCountP_set_decr (fun src => MSource.isActive src) srcs j
                ⟨[], none, .pulling⟩ ⟨[], none, .doneS⟩ hget rfl rfl
              omega
            · dsimp only
              have hc := muxCountP_set_eq (fun src => MSource.isThrown src) srcs j
                ⟨[], none, .pulling⟩ ⟨[], none, .doneS⟩ hget rfl
              omega
            · dsimp only
              intro jv hmem
              obtain ⟨src', hs', hq'⟩ := h₃ jv hmem
              exact ⟨src', by
                rw [muxGet?_set_ne srcs j jv.1 _ (fun hc =>
                  hjne jv hmem hc.symm)]
                exact hs', hq'⟩
            · dsimp only
              exact h₄
            · dsimp only
              intro hf
              have := h₆ hf
              omega
          | some e =>
            simp only [muxCompletePull, hget, Option.getD_some]
            refine ⟨?_, ?_, ?_, ?_, h₅, ?_⟩
            · dsimp only
              have hc := muxCountP_set_eq (fun src => MSource.isActive src) srcs j
                ⟨[], some e, .pulling⟩ ⟨[], some e, .thrown⟩ hget rfl
              omega
            · dsimp only
              have hc := muxCountP_set_incr (fun src => MSource.isThrown src) srcs j
                ⟨[], some e, .pulling⟩ ⟨[], some e, .thrown⟩ hget rfl rfl
              simp only [List.length_append, List.length_cons, List.length_nil]
              omega
            · dsimp only
              intro jv hmem
              obtain ⟨src', hs', hq'⟩ := h₃ jv hmem
              exact ⟨src', by
                rw [muxGet?_set_ne srcs j jv.1 _ (fun hc =>
                  hjne jv hmem hc.symm)]
                exact hs', hq'⟩
            · dsimp only
              exact h₄
            · dsimp only
              exact h₆
  | loopStep =>
    simp only [muxStep]
    cases pc with
    | atCheck =>
      simp only [muxLoopStep]
      split
      · rename_i hcnt
        simp only [Option.getD_some]
        exact ⟨h₁, h₂, h₃, h₄, (fun i hi => nomatch hi), fun _ => hcnt⟩
      · simp only [Option.getD_some]
        exact ⟨h₁, h₂, h₃, h₄, (fun i hi => nomatch hi), (fun hf => nomatch hf)⟩
    | atSignal =>
      simp only [muxLoopStep]
      split
      · simp only [Option.getD_some]
        refine ⟨h₁, h₂, h₃, h₄, ?_, (fun hf => nomatch hf)⟩
        intro i hi
        injection hi with hi₂
        omega
      · simp only [Option.getD_none]
        exact ⟨h₁, h₂, h₃, h₄, h₅, h₆⟩
    | drain i =>
      simp only [muxLoopStep]
      cases hy : ys.get? i with
      | some jv =>
        obtain ⟨j, v⟩ := jv
        have hdrop := muxDrop_get?_cons ys i (j, v) hy
        have hmemi : (j, v) ∈ muxUndrainedOf (.drain i) ys := by
          show (j, v) ∈ ys.drop i
          rw [hdrop]
          exact List.mem_cons_self _ _
        obtain ⟨src, hsrc, hq⟩ := h₃ (j, v) hmemi
        obtain ⟨svals, sfin, sstat⟩ := src
        dsimp only at hq
        subst hq
        have hnod : (muxUndrainedOf (.drain i) ys).map Prod.fst =
            j :: (ys.drop (i + 1)).map Prod.fst := by
          show (ys.drop i).map Prod.fst = _
          rw [hdrop, List.map_cons]
        rw [hnod, List.nodup_cons] at h₄
        obtain ⟨hjnotin, hnodtail⟩ := h₄
        simp only [hy, hsrc, Option.getD_some]
        refine ⟨?_, ?_, ?_, ?_, ?_, ?_⟩
        · dsimp only
          have hc := muxCountP_set_eq (fun src => MSource.isActive src) srcs j
            ⟨svals, sfin, .queued⟩ ⟨svals, sfin, .pulling⟩ hsrc rfl
          omega
        · dsimp only
          have hc := muxCountP_set_eq (fun src => MSource.isThrown src) srcs j
            ⟨svals, sfin, .queued⟩ ⟨svals, sfin, .pulling⟩ hsrc rfl
          omega
        · dsimp only
          show ∀ jv ∈ ys.drop (i + 1), _
          intro jv hmem
          have hmem₀ : jv ∈ muxUndrainedOf (.drain i) ys := by
            show jv ∈ ys.drop i
            rw [hdrop]
            exact List.mem_cons_of_mem _ hmem
          obtain ⟨src', hs', hq'⟩ := h₃ jv hmem₀
          have hne : j ≠ jv.1 := by
            intro hc
            exact hjnotin (hc ▸ List.mem_map_of_mem Prod.fst hmem)
          exact ⟨src', by
            rw [muxGet?_set_ne srcs j jv.1 _ hne]
            exact hs', hq'⟩
        · dsimp only
          show ((ys.drop (i + 1)).map Prod.fst).Nodup
          exact hnodtail
        · dsimp only
          intro i' hi'
          injection hi' with hi₂
          have := muxGet?_lt_length ys i _ hy
          omega
        · exact (fun hf => nomatch hf)
      | none =>
        cases ts with
        | cons e rest =>
          simp only [hy, Option.getD_some]
          refine ⟨h₁, h₂, ?_, ?_, (fun i' hi' => nomatch hi'),
            (fun hf => nomatch hf)⟩
          · intro jv hmem
            exact absurd hmem (List.not_mem_nil _)
          · exact List.nodup_nil
        | nil =>
          simp only [hy, Option.getD_some]
          refine ⟨h₁, h₂, ?_, ?_, (fun i' hi' => nomatch hi'),
            (fun hf => nomatch hf)⟩
          · intro jv hmem
            exact absurd hmem (List.not_mem_nil _)
          · exact List.nodup_nil
    | finished =>
      simp only [muxLoopStep, Option.getD_none]
      exact ⟨h₁, h₂, h₃, h₄, h₅, h₆⟩
    | raised =>
      simp only [muxLoopStep, Option.getD_none]
      exact ⟨h₁, h₂, h₃, h₄, h₅, h₆⟩

theorem muxRun_inv {ε τ : Type} :
    ∀ (cs : List MuxChoice) (s : MuxState ε τ),
      MuxInv s → MuxInv (muxRun s cs)
  | [], _, h => h
  | c :: cs, s, h => muxRun_inv cs _ (muxStep_inv s c h)

theorem muxInit_inv {ε τ : Type} (srcs : List (List τ × Option ε)) :
    MuxInv (muxInit srcs) := by
  refine ⟨?_, ?_, ?_, ?_, ?_, ?_⟩
  · show srcs.length = _
    rw [List.countP_eq_length.mpr]
    · exact (List.length_map _ _).symm
    · intro src hsrc
      obtain ⟨x, hx, rfl⟩ := List.mem_map.mp hsrc
      rfl
  · show (0 : Nat) = _
    rw [List.countP_eq_zero.mpr]
    intro src hsrc
    obtain ⟨x, hx, rfl⟩ := List.mem_map.mp hsrc
    simp [MSource.isThrown]
  · intro jv hmem
    exact absurd hmem (List.not_mem_nil _)
  · exact List.nodup_nil
  · intro i hi
    exact nomatch hi
  · intro hf
    exact nomatch hf

/-! ## Theorems: multiplexer termination (C7) -/

/-- C7: the combined iteration of the multiplexer ends without error exactly
when the active-source count reaches zero: whenever a run has terminated
cleanly, the count is zero with no queued values and no accumulated failures
remaining; conversely, any state at the loop test with a zero count
terminates cleanly on the next loop resumption; and a multiplexer with zero
registered sources yields an immediately-terminated, empty sequence. -/
theorem muxAsyncIterator_terminates_iff {ε τ : Type}
    (srcs : List (List τ × Option ε)) (cs : List MuxChoice) :
    ((muxRun (muxInit srcs) cs).pc = .finished →
      (muxRun (muxInit srcs) cs).iteratorCount = 0 ∧
      (muxRun (muxInit srcs) cs).yields = [] ∧
      (muxRun (muxInit srcs) cs).throws = []) ∧
    (∀ s : MuxState ε τ, s.pc = .atCheck → s.iteratorCount = 0 →
      (muxRun s [MuxChoice.loopStep]).pc = .finished) ∧
    (muxRun (muxInit ([] : List (List τ × Option ε)))
      [MuxChoice.loopStep]).output = [.doneEv] := by
  obtain ⟨h₁, h₂, h₃, h₄, h₅, h₆⟩ := muxRun_inv cs (muxInit srcs)
    (muxInit_inv srcs)
  refine ⟨?_, ?_, ?_⟩
  · intro hf
    have hcnt := h₆ hf
    refine ⟨hcnt, ?_, ?_⟩
    · by_contra hne
      obtain ⟨y, ys₂, hys⟩ := List.exists_cons_of_ne_nil hne
      have hmem : y ∈ muxUndrainedOf (muxRun (muxInit srcs) cs).pc
          (muxRun (muxInit srcs) cs).yields := by
        rw [hf, hys]
        exact List.mem_cons_self _ _
      obtain ⟨src, hsrc, hq⟩ := h₃ y hmem
      have hmem₂ := List.get?_mem hsrc
      have hact : MSource.isActive src = true := by
        obtain ⟨a, b, st⟩ := src
        dsimp only at hq
        subst hq
        rfl
      have hpos : 0 < (muxRun (muxInit srcs) cs).sources.countP
          (fun src => MSource.isActive src) :=
        List.countP_pos_iff.mpr ⟨src, hmem₂, hact⟩
      omega
    · have h₀ : (muxRun (muxInit srcs) cs).sources.countP
          (fun src => MSource.isActive src) = 0 := by omega
      have hall := List.countP_eq_zero.mp h₀
      have hth : (muxRun (muxInit srcs) cs).sources.countP
          (fun src => MSource.isThrown src) = 0 := by
        refine List.countP_eq_zero.mpr ?_
        intro src hm
        have hna := hall src hm
        obtain ⟨a, b, st⟩ := src
        cases st <;> simp [MSource.isActive, MSource.isThrown] at hna ⊢
      have hlen : (muxRun (muxInit srcs) cs).throws.length = 0 := by omega
      exact List.eq_nil_of_length_eq_zero hlen
  · intro s hpc hcnt
    obtain ⟨srcs₂, cnt₂, ys₂, ts₂, sig₂, pc₂, out₂⟩ := s
    dsimp only at hpc hcnt
    subst hpc
    subst hcnt
    rfl
  · rfl

/-- Witness for `muxAsyncIterator_terminates_iff`: a single clean source run
to completion, plus the zero-source multiplexer finishing at its first loop
test. -/
theorem muxAsyncIterator_terminates_iff_witness :
    ((muxRun (muxInit ([([10, 20], none)] : List (List Nat × Option Nat)))
        [.completePull 0, .loopStep, .loopStep, .loopStep, .completePull 0,
          .loopStep, .loopStep, .loopStep, .completePull 0, .loopStep,
          .loopStep, .loopStep, .loopStep]).iteratorCount = 0 ∧
      (muxRun (muxInit ([([10, 20], none)] : List (List Nat × Option Nat)))
        [.completePull 0, .loopStep, .loopStep, .loopStep, .completePull 0,
          .loopStep, .loopStep, .loopStep, .completePull 0, .loopStep,
          .loopStep, .loopStep, .loopStep]).yields = [] ∧
      (muxRun (muxInit ([([10, 20], none)] : List (List Nat × Option Nat)))
        [.completePull 0, .loopStep, .loopStep, .loopStep, .completePull 0,
          .loopStep, .loopStep, .loopStep, .completePull 0, .loopStep,
          .loopStep, .loopStep, .loopStep]).throws = []) ∧
    (muxRun (muxInit ([] : List (List Nat × Option Nat)))
      [MuxChoice.loopStep]).pc = .finished := by
  have h := muxAsyncIterator_terminates_iff
    ([([10, 20], none)] : List (List Nat × Option Nat))
    [.completePull 0, .loopStep, .loopStep, .loopStep, .completePull 0,
      .loopStep, .loopStep, .loopStep, .completePull 0, .loopStep,
      .loopStep, .loopStep, .loopStep]
  exact ⟨h.1 (by decide), h.2.1 (muxInit ([] : List (List Nat × Option Nat)))
    (by decide) (by decide)⟩

/-! ## Theorems: accept-loop backoff (C6) -/

theorem nextBackoffDelay_capped_double (i : Nat) :
    nextBackoffDelay (some (min (5 * 2 ^ i) 1000)) =
      min (5 * 2 ^ (i + 1)) 1000 := by
  simp only [nextBackoffDelay, MAX_ACCEPT_BACKOFF_DELAY]
  have h2 : (2 : Nat) ^ (i + 1) = 2 ^ i * 2 := pow_succ 2 i
  split
  · rename_i hle
    rw [h2] at *
    omega
  · rename_i hlt
    rw [h2] at *
    omega

theorem acceptLoop_transient_script {C : Type} (k : AcceptErrKind)
    (hk : k.isTransient = true) :
    ∀ (n i : Nat),
      acceptLoop (some (min (5 * 2 ^ i) 1000))
        (List.replicate n (.failure k) : List (AcceptOutcome C)) =
      ((List.range n).map (fun j => min (5 * 2 ^ (i + 1 + j)) 1000), none)
  | 0, _ => rfl
  | n + 1, i => by
    show acceptLoop _ (.failure k :: List.replicate n (.failure k)) = _
    simp only [acceptLoop, hk, if_pos, nextBackoffDelay_capped_double,
      acceptLoop_transient_script k hk n (i + 1)]
    rw [List.range_succ_eq_map, List.map_cons, List.map_map]
    refine congrArg₂ Prod.mk (congrArg₂ List.cons rfl ?_) rfl
    refine List.map_congr_left ?_
    intro j hj
    have harith : i + 1 + 1 + j = i + 1 + (j + 1) := by omega
    simp only [Function.comp]
    rw [harith]

/-- C6: consecutive transient accept failures (listener closed, invalid
handshake data, unexpected EOF, connection reset, not connected) produce
backoff sleeps starting at the minimal delay, doubling on each consecutive
failure and capped at the maximum, with no error surfaced to the caller; a
successful accept resets the accumulated delay; in particular three
consecutive connection-reset failures sleep exactly (5, 10, 20) ms. -/
theorem server_accept_backoff {C : Type} (k : AcceptErrKind)
    (hk : k.isTransient = true) :
    (∀ n, acceptLoop none
        (List.replicate n (.failure k) : List (AcceptOutcome C)) =
      ((List.range n).map (fun i =>
        min (INITIAL_ACCEPT_BACKOFF_DELAY * 2 ^ i) MAX_ACCEPT_BACKOFF_DELAY),
        none)) ∧
    (∀ (c : C) (rest : List (AcceptOutcome C)) (d : Option Nat),
      acceptLoop d (.success c :: rest) = acceptLoop none rest) ∧
    acceptLoop none
      (List.replicate 3 (.failure .connectionReset) :
        List (AcceptOutcome C)) = ([5, 10, 20], none) := by
  have hmain : ∀ n, acceptLoop none
      (List.replicate n (.failure k) : List (AcceptOutcome C)) =
      ((List.range n).map (fun i => min (5 * 2 ^ i) 1000), none) := by
    intro n
    cases n with
    | zero => rfl
    | succ m =>
      show acceptLoop none (.failure k :: List.replicate m (.failure k)) = _
      have h5 : nextBackoffDelay none = min (5 * 2 ^ 0) 1000 := by decide
      simp only [acceptLoop, hk, if_pos, h5,
        acceptLoop_transient_script k hk m 0]
      rw [List.range_succ_eq_map, List.map_cons, List.map_map]
      refine congrArg₂ Prod.mk (congrArg₂ List.cons rfl ?_) rfl
      refine List.map_congr_left ?_
      intro j hj
      have harith : 0 + 1 + j = j + 1 := by omega
      simp only [Function.comp]
      rw [harith]
  refine ⟨?_, ?_, ?_⟩
  · intro n
    simpa only [INITIAL_ACCEPT_BACKOFF_DELAY, MAX_ACCEPT_BACKOFF_DELAY]
      using hmain n
  · intro c rest d
    rfl
  · have h := acceptLoop_transient_script (C := C) .connectionReset rfl 2 0
    show acceptLoop none
      (.failure .connectionReset :: List.replicate 2 (.failure .connectionReset)) = _
    have h5 : nextBackoffDelay none = min (5 * 2 ^ 0) 1000 := by decide
    simp only [acceptLoop, h5, h]
    decide

/-- Witness for `server_accept_backoff` at the connection-reset error kind
over `Unit` connections. -/
theorem server_accept_backoff_witness :
    (acceptLoop none
      (List.replicate 3 (.failure .connectionReset) :
        List (AcceptOutcome Unit)) = ([5, 10, 20], none)) ∧
    acceptLoop (some 640)
      (.success () :: List.replicate 1 (.failure .connectionReset) :
        List (AcceptOutcome Unit)) = ([5], none) := by
  have h := server_accept_backoff (C := Unit) AcceptErrKind.connectionReset rfl
  refine ⟨h.2.2, ?_⟩
  rw [h.2.1 () _ (some 640)]
  have h₂ := h.1 1
  simpa using h₂
